import Mathlib

/-!
Verification development for the krang/kraang personal knowledge store.

The source repository contains two near-duplicate packages:
  * src/kraang — unified notes + sessions store (search.py, store.py, models.py)
  * src/krang  — the older notes-only variant (search.py, sqlite_store.py, models.py)

This file gives a shallow embedding of the query sanitizer/compiler, the
scoring model, the snippet generator, the related-notes analyzer and the
prefix lookup, and proves properties of them.

Strings are modelled as `List Char`.  Python's whitespace and word-character
classes are modelled over ASCII (the repository's queries and the properties
at issue are ASCII-level; Unicode classes would only widen the character
sets, which none of the claims depend on).
-/

/-- The double-quote character. -/
def quoteChar : Char := '"'

/-- The NUL character used by the sanitizer's placeholder scheme
(Python `"\x00{idx}\x00"`). -/
def nulChar : Char := Char.ofNat 0

/-- ASCII model of Python `str.isspace` / `\s` (space, tab, newline,
carriage return, vertical tab, form feed). -/
def pyIsSpace (c : Char) : Bool :=
  c = ' ' ∨ c = '\t' ∨ c = '\n' ∨ c = '\r' ∨ c = Char.ofNat 11 ∨ c = Char.ofNat 12

/-- The FTS5 "unsafe" character set stripped from bare terms:
regex `[\^\*\(\)\{\}\[\]:]` in both search.py variants. -/
def isUnsafe (c : Char) : Bool :=
  c = '^' ∨ c = '*' ∨ c = '(' ∨ c = ')' ∨ c = '{' ∨ c = '}' ∨ c = '[' ∨ c = ']' ∨ c = ':'

/-- ASCII model of regex `\w` (Python word character): letters, digits, underscore. -/
def isWordChar (c : Char) : Bool :=
  ('a' ≤ c ∧ c ≤ 'z') ∨ ('A' ≤ c ∧ c ≤ 'Z') ∨ ('0' ≤ c ∧ c ≤ '9') ∨ c = '_'

/-- ASCII lower-casing of one character (model of Python `str.lower`). -/
def lowerChar (c : Char) : Char :=
  if 'A' ≤ c ∧ c ≤ 'Z' then Char.ofNat (c.toNat + 32) else c

/-- ASCII upper-casing of one character (model of Python `str.upper`). -/
def upperChar (c : Char) : Char :=
  if 'a' ≤ c ∧ c ≤ 'z' then Char.ofNat (c.toNat - 32) else c

/-- Number of double quotes in a string (Python `raw.count('"')`). -/
def quoteCount (s : List Char) : Nat := s.count quoteChar

/-- Decimal digit character. -/
def digitChar (d : Nat) : Char := Char.ofNat (48 + d)

/-- Auxiliary for `natDigits`; the fuel argument bounds the number of
divisions by 10 and always suffices because it starts at the number itself. -/
def natDigitsAux : Nat → Nat → List Char → List Char
  | 0, n, acc => digitChar n :: acc
  | fuel + 1, n, acc =>
    if n < 10 then digitChar n :: acc
    else natDigitsAux fuel (n / 10) (digitChar (n % 10) :: acc)

/-- Decimal digits of a natural number (model of Python `f"{idx}"`). -/
def natDigits (n : Nat) : List Char := natDigitsAux n n []

/-- The placeholder the sanitizer substitutes for the idx-th stashed quoted
phrase: NUL, the decimal index, NUL (Python `f"\x00{len(phrases) - 1}\x00"`). -/
def placeholder (idx : Nat) : List Char := nulChar :: natDigits idx ++ [nulChar]

/-- Split a string at its first double quote, returning the part before the
quote and the part after it, or `none` when the string has no quote.  This is
how the regex `"[^"]*"` finds the closing quote of a phrase. -/
def splitAtQuote : List Char → Option (List Char × List Char)
  | [] => none
  | c :: rest =>
    if c = quoteChar then some ([], rest)
    else (splitAtQuote rest).map (fun p => (c :: p.1, p.2))

/-- Whether the string contains a double quote. -/
def hasQuote (s : List Char) : Bool := (splitAtQuote s).isSome

/-- Python `s.replace(pat, repl)`: replace all non-overlapping occurrences,
scanning left to right.  The fuel argument bounds the scan length and always
suffices because each step consumes at least one character; it is only there
to make the recursion structural. -/
def replaceAllAux (pat repl : List Char) : Nat → List Char → List Char
  | 0, s => s
  | _ + 1, [] => []
  | fuel + 1, c :: rest =>
    if pat ≠ [] ∧ pat.isPrefixOf (c :: rest) then
      repl ++ replaceAllAux pat repl fuel ((c :: rest).drop pat.length)
    else
      c :: replaceAllAux pat repl fuel rest

/-- Python `s.replace(pat, repl)` (for the nonempty patterns used here). -/
def replaceAll (s pat repl : List Char) : List Char :=
  replaceAllAux pat repl s.length s

/-- Phrase extraction: the `_QUOTED_PHRASE.sub(_stash, raw)` pass.  Scans left
to right; each complete quoted phrase `"..."` is appended to the phrase list
and replaced in the text by `placeholder idx`; a quote with no later closing
quote matches nothing, so the remainder is left untouched.  The fuel argument
bounds the scan and always suffices (each step consumes at least one
character). -/
def stashAux : Nat → List Char → List (List Char) → List Char × List (List Char)
  | 0, s, phrases => (s, phrases)
  | _ + 1, [], phrases => ([], phrases)
  | fuel + 1, c :: rest, phrases =>
    if c = quoteChar then
      match splitAtQuote rest with
      | some (content, after) =>
        let r := stashAux fuel after (phrases ++ [quoteChar :: content ++ [quoteChar]])
        (placeholder phrases.length ++ r.1, r.2)
      | none => (c :: rest, phrases)
    else
      let r := stashAux fuel rest phrases
      (c :: r.1, r.2)

/-- Phrase extraction from a raw string, starting with no stashed phrases. -/
def stash (s : List Char) : List Char × List (List Char) :=
  stashAux s.length s []

/-- The `_FTS5_SPECIAL.sub(" ", text)` pass: every unsafe character becomes a
single space. -/
def unsafeSub (s : List Char) : List Char :=
  s.map (fun c => if isUnsafe c then ' ' else c)

/-- The phrase-restoring loop `for idx, phrase in enumerate(phrases):
text = text.replace(placeholder(idx), phrase)`. -/
def restoreAux : List (List Char) → Nat → List Char → List Char
  | [], _, text => text
  | ph :: rest, idx, text => restoreAux rest (idx + 1) (replaceAll text (placeholder idx) ph)

/-- Python `s.split()`: maximal runs of non-whitespace characters. -/
def pySplitAux : List Char → List Char → List (List Char)
  | [], cur => if cur = [] then [] else [cur.reverse]
  | c :: rest, cur =>
    if pyIsSpace c then
      (if cur = [] then [] else [cur.reverse]) ++ pySplitAux rest []
    else
      pySplitAux rest (c :: cur)

/-- Python `s.split()`. -/
def pySplit (s : List Char) : List (List Char) := pySplitAux s []

/-- Python `sep.join(parts)`. -/
def joinSep (sep : List Char) : List (List Char) → List Char
  | [] => []
  | [x] => x
  | x :: y :: rest => x ++ sep ++ joinSep sep (y :: rest)

/-- Python `" ".join(s.split())`: collapse runs of whitespace to single
spaces and trim both ends. -/
def collapseWs (s : List Char) : List Char := joinSep [' '] (pySplit s)

/-- The shared body of `sanitize_fts_query` (both packages): stash quoted
phrases, blank unsafe characters in the remaining text, restore the phrases,
collapse whitespace. -/
def sanitizePipeline (s : List Char) : List Char :=
  let p := stash s
  collapseWs (restoreAux p.2 0 (unsafeSub p.1))

/-- Whether a position starting with character `c` sits at a regex word
boundary, given the previous character (`none` at the start of the string):
a boundary needs the previous character to be a non-word character. -/
def atWordBoundary : Option Char → Bool
  | none => true
  | some p => ¬ isWordChar p

/-- Whether the string starts with `tag:` (case-insensitive) followed by at
least one non-whitespace character — the start of a `\btag:\S+` match. -/
def matchesTagAt : List Char → Bool
  | t :: a :: g :: colon :: c :: _ =>
    lowerChar t = 't' ∧ lowerChar a = 'a' ∧ lowerChar g = 'g' ∧ colon = ':' ∧ ¬ pyIsSpace c
  | _ => false

/-- The `re.sub(r"\btag:\S+", "", raw, flags=re.IGNORECASE)` pass of
`build_fts_query`: scan left to right; wherever a word boundary is followed
by `tag:` and a non-empty run of non-whitespace characters, delete the whole
match and continue scanning after it.  `prev` is the character before the
current position in the original string (for the `\b` test).  The fuel
argument bounds the scan and always suffices (each step consumes at least
one character). -/
def stripTagsAux : Nat → Option Char → List Char → List Char
  | 0, _, s => s
  | _ + 1, _, [] => []
  | fuel + 1, prev, c :: rest =>
    if atWordBoundary prev ∧ matchesTagAt (c :: rest) then
      let afterColon := rest.drop 3
      let run := afterColon.takeWhile (fun c => ¬ pyIsSpace c)
      let after := afterColon.dropWhile (fun c => ¬ pyIsSpace c)
      stripTagsAux fuel run.getLast? after
    else
      c :: stripTagsAux fuel (some c) rest

/-- Removal of `tag:<token>` metadata-filter terms before sanitizing. -/
def stripTagTerms (raw : List Char) : List Char := stripTagsAux raw.length none raw

/-- A token of the sanitized query: a quoted phrase or a bare word, in
original left-to-right order. -/
inductive Tok where
  | phrase (v : List Char)
  | word (v : List Char)
deriving DecidableEq, Repr

/-- The underlying text of a token. -/
def Tok.val : Tok → List Char
  | .phrase v => v
  | .word v => v

/-- Tokenization of the sanitized query, mirroring build_fts_query:
the source extracts quoted-phrase matches of `"[^"]*"` with their positions,
blanks those spans out, extracts the remaining maximal `\S+` runs with their
positions, and sorts all tokens by position.  Because the two kinds of spans
are disjoint and each list is produced in increasing position order, that
sort is exactly a single left-to-right scan, which is how it is written
here: accumulate word characters; a quote with a later closing quote ends
the current word and yields a phrase token; a quote with no later closing
quote is an ordinary word character (the phrase regex does not match it);
whitespace ends the current word.  `cur` holds the current word reversed.
The fuel argument bounds the scan and always suffices. -/
def tokenizeAux : Nat → List Char → List Char → List Tok
  | 0, _, cur => if cur = [] then [] else [Tok.word cur.reverse]
  | _ + 1, [], cur => if cur = [] then [] else [Tok.word cur.reverse]
  | fuel + 1, c :: rest, cur =>
    if c = quoteChar then
      match splitAtQuote rest with
      | some (content, after) =>
        (if cur = [] then [] else [Tok.word cur.reverse]) ++
          Tok.phrase (quoteChar :: content ++ [quoteChar]) :: tokenizeAux fuel after []
      | none => tokenizeAux fuel rest (c :: cur)
    else if pyIsSpace c then
      (if cur = [] then [] else [Tok.word cur.reverse]) ++ tokenizeAux fuel rest []
    else
      tokenizeAux fuel rest (c :: cur)

/-- Tokenization of a sanitized query string. -/
def tokenize (s : List Char) : List Tok := tokenizeAux s.length s []

/-- The recognised boolean operators `_BOOLEAN_OPS = {"AND", "OR", "NOT"}`. -/
def booleanOps : List (List Char) := [['A', 'N', 'D'], ['O', 'R'], ['N', 'O', 'T']]

/-- The emission step of build_fts_query: a quoted phrase, or a word that is
literally one of the boolean operators, is emitted unchanged; any other word
is wrapped in double quotes. -/
def emitTok : Tok → List Char
  | .phrase v => v
  | .word v => if v ∈ booleanOps then v else quoteChar :: v ++ [quoteChar]

namespace Kraang

/-- src/kraang/search.py `sanitize_fts_query`: returns "" on blank input;
if the input has an odd number of double quotes it first drops ALL quotes
and re-runs the blank check; then runs the stash / strip / restore /
collapse pipeline. -/
def sanitize_fts_query (raw : List Char) : List Char :=
  if raw.all pyIsSpace then []
  else if quoteCount raw % 2 ≠ 0 then
    let stripped := raw.filter (fun c => c ≠ quoteChar)
    if stripped.all pyIsSpace then [] else sanitizePipeline stripped
  else sanitizePipeline raw

/-- src/kraang/search.py `build_fts_query`: strip `tag:xyz` terms, sanitize,
then tokenize and emit (phrases and literal boolean operators unchanged,
bare words wrapped in quotes), joining the parts with single spaces. -/
def build_fts_query (raw : List Char) : List Char :=
  let sanitized := sanitize_fts_query (stripTagTerms raw)
  if sanitized = [] then []
  else joinSep [' '] ((tokenize sanitized).map emitTok)

/-- src/kraang/models.py `Note` (the fields the search layer reads; the
timestamps are modelled as epoch integers). -/
structure Note where
  note_id : List Char
  title : List Char
  content : List Char
  tags : List (List Char)
  category : List Char
  relevance : ℚ
  created_at : ℤ
  updated_at : ℤ
deriving DecidableEq, Repr

/-- A row returned by the FTS engine for a notes query: the joined note, the
raw bm25 score (engine-signed: more negative = more relevant) and the
engine-produced snippet. -/
structure NoteHit where
  note : Note
  score : ℚ
  snip : List Char
deriving DecidableEq, Repr

/-- src/kraang/models.py `NoteSearchResult`. -/
structure NoteSearchResult where
  note : Note
  score : ℚ
  snippet : List Char
deriving DecidableEq, Repr

/-- src/kraang/models.py `Session` (the fields the search layer reads;
bookkeeping fields such as turn counts, tool lists and source mtime/size do
not affect any claim and are omitted). -/
structure Session where
  session_id : List Char
  slug : List Char
  project_path : List Char
  summary : List Char
  user_text : List Char
  assistant_text : List Char
  started_at : ℤ
  ended_at : ℤ
deriving DecidableEq, Repr

/-- A row returned by the FTS engine for a sessions query. -/
structure SessionHit where
  session : Session
  score : ℚ
  snip : List Char
deriving DecidableEq, Repr

/-- src/kraang/models.py `SessionSearchResult`. -/
structure SessionSearchResult where
  session : Session
  score : ℚ
  snippet : List Char
deriving DecidableEq, Repr

/-- Failure of the storage engine to execute a compiled match expression
(SQLite raising on a malformed FTS5 query). -/
inductive EngineError where
  | malformedQuery
deriving DecidableEq, Repr

end Kraang

/-- Stable insertion of `x` into a list sorted ascending by `key`: `x` goes
after all elements with a key not larger than its own. -/
def insertAscBy (key : α → ℚ) (x : α) : List α → List α
  | [] => [x]
  | y :: ys => if key x < key y then x :: y :: ys else y :: insertAscBy key x ys

/-- Model of SQL `ORDER BY key ASC` as a stable sort (SQLite keeps no
documented tie order; no claim depends on the order of equal keys). -/
def orderByAsc (key : α → ℚ) : List α → List α
  | [] => []
  | x :: xs => insertAscBy key x (orderByAsc key xs)

namespace Kraang

/-- The row pipeline of `SQLiteStore.search_notes`: the SQL filters out rows
with `relevance <= 0`, orders by `bm25 * relevance` ascending and applies
`LIMIT`; the Python loop then builds results with
`score = abs(bm25) * relevance` and the engine snippet. -/
def scoreNoteRows (rows : List NoteHit) (limit : Nat) : List NoteSearchResult :=
  let matched := rows.filter (fun r => 0 < r.note.relevance)
  let ordered := orderByAsc (fun r => r.score * r.note.relevance) matched
  (ordered.take limit).map (fun r => ⟨r.note, |r.score| * r.note.relevance, r.snip⟩)

/-- src/kraang/store.py `SQLiteStore.search_notes`: executes the match query
through the engine capability; the whole body is wrapped in
try/except, so an engine failure yields the empty result list. -/
def search_notes (engine : List Char → Except EngineError (List NoteHit))
    (fts_expr : List Char) (limit : Nat) : List NoteSearchResult :=
  match engine fts_expr with
  | .ok rows => scoreNoteRows rows limit
  | .error _ => []

/-- The row pipeline of `SQLiteStore.search_sessions`: no relevance concept;
the SQL orders by the bm25 score ascending and applies `LIMIT`; the Python
loop builds results with `score = abs(bm25)`. -/
def scoreSessionRows (rows : List SessionHit) (limit : Nat) : List SessionSearchResult :=
  let ordered := orderByAsc (fun r => r.score) rows
  (ordered.take limit).map (fun r => ⟨r.session, |r.score|, r.snip⟩)

/-- src/kraang/store.py `SQLiteStore.search_sessions`: like `search_notes`,
wrapped in try/except returning the empty list on engine failure. -/
def search_sessions (engine : List Char → Except EngineError (List SessionHit))
    (fts_expr : List Char) (limit : Nat) : List SessionSearchResult :=
  match engine fts_expr with
  | .ok rows => scoreSessionRows rows limit
  | .error _ => []

/-- src/kraang/store.py `SQLiteStore.get_session`: a prefix shorter than 36
characters is looked up with `LIKE prefix% LIMIT 2` (modelled as prefix
match over the stored sessions in table order, keeping at most two rows);
no row is `None`, one row is that session, two rows raise ValueError
carrying `session_id[:12]` of each fetched row.  A 36-character-or-longer
argument is looked up by exact id.  The ValueError is modelled as the
`Except.error` carrying the candidate list. -/
def get_session (sessions : List Session) (session_id_pfx : List Char) :
    Except (List (List Char)) (Option Session) :=
  if session_id_pfx.length < 36 then
    let rows := (sessions.filter (fun s => session_id_pfx.isPrefixOf s.session_id)).take 2
    match rows with
    | [] => .ok none
    | [r] => .ok (some r)
    | r1 :: r2 :: _ => .error ([r1, r2].map (fun s => s.session_id.take 12))
  else
    match sessions.find? (fun s => s.session_id = session_id_pfx) with
    | none => .ok none
    | some r => .ok (some r)

end Kraang

namespace Krang

/-- src/krang/search.py `sanitize_fts_query`: identical to the kraang variant
except that it has NO odd-quote recovery branch. -/
def sanitize_fts_query (raw : List Char) : List Char :=
  if raw.all pyIsSpace then [] else sanitizePipeline raw

/-- src/krang/search.py `build_fts_query`: textually identical to the kraang
variant, but calling the krang sanitizer (which lacks odd-quote recovery). -/
def build_fts_query (raw : List Char) : List Char :=
  let sanitized := sanitize_fts_query (stripTagTerms raw)
  if sanitized = [] then []
  else joinSep [' '] ((tokenize sanitized).map emitTok)

/-- src/krang/models.py `NoteStatus`. -/
inductive NoteStatus where
  | active
  | archived
deriving DecidableEq, Repr

/-- src/krang/models.py `Note` (timestamps as epoch integers, metadata as an
association list). -/
structure Note where
  note_id : List Char
  title : List Char
  content : List Char
  tags : List (List Char)
  category : List Char
  status : NoteStatus
  created_at : ℤ
  updated_at : ℤ
  metadata : List (List Char × List Char)
deriving DecidableEq, Repr

/-- Pydantic validation failure when constructing a model. -/
inductive ValidationError where
  | queryTooShort
  | limitOutOfRange
deriving DecidableEq, Repr

/-- src/krang/models.py `SearchQuery`.  The pydantic field constraints
(`query` min_length 1, `limit` between 1 and 100, `offset` at least 0) are
enforced by the `make` constructor below; `limit` and `offset` are natural
numbers, which builds in the non-negativity constraints. -/
structure SearchQuery where
  query : List Char
  tags : List (List Char)
  category : Option (List Char)
  status : Option NoteStatus
  date_from : Option ℤ
  date_to : Option ℤ
  limit : Nat
  offset : Nat
deriving DecidableEq, Repr

/-- Validated construction of a `SearchQuery`, modelling pydantic raising
`ValidationError` when a field constraint is violated. -/
def SearchQuery.make (query : List Char) (tags : List (List Char))
    (category : Option (List Char)) (status : Option NoteStatus)
    (date_from date_to : Option ℤ) (limit offset : Nat) :
    Except ValidationError SearchQuery :=
  if query.length < 1 then .error .queryTooShort
  else if limit < 1 ∨ 100 < limit then .error .limitOutOfRange
  else .ok ⟨query, tags, category, status, date_from, date_to, limit, offset⟩

/-- src/krang/models.py `SearchResult`. -/
structure SearchResult where
  note : Note
  score : ℚ
  snippet : List Char
deriving DecidableEq, Repr

/-- src/krang/models.py `SearchResponse`. -/
structure SearchResponse where
  results : List SearchResult
  total : Nat
  query : List Char
deriving DecidableEq, Repr

/-- A row produced by the krang notes FTS query (note, raw bm25 score,
engine snippet). -/
structure NoteHit where
  note : Note
  score : ℚ
  snip : List Char
deriving DecidableEq, Repr

/-- A character replaced by the krang store's escaping regex
`[^\w\s"]+`: anything that is not a word character, whitespace or a double
quote. -/
def isKrangSpecial (c : Char) : Bool :=
  ¬ (isWordChar c ∨ pyIsSpace c ∨ c = quoteChar)

/-- The `_FTS5_SPECIAL.sub(" ", text)` pass of src/krang/sqlite_store.py:
each maximal run of special characters becomes a single space.  `prevSpec`
records whether the previous character belonged to a special run. -/
def krangSpecialSubAux : Bool → List Char → List Char
  | _, [] => []
  | prevSpec, c :: rest =>
    if isKrangSpecial c then
      (if prevSpec then [] else [' ']) ++ krangSpecialSubAux true rest
    else
      c :: krangSpecialSubAux false rest

/-- src/krang/sqlite_store.py `_escape_fts`: stash quoted phrases, replace
runs of special characters with spaces, restore phrases, then quote each
bare token (tokens already quoted at both ends pass through, tokens whose
upper-case form is a boolean operator are emitted upper-cased). -/
def escape_fts (raw : List Char) : List Char :=
  if raw.all pyIsSpace then [quoteChar, quoteChar]
  else
    let p := stash raw
    let text := restoreAux p.2 0 (krangSpecialSubAux false p.1)
    let toks := pySplit text
    let parts := toks.map (fun tok =>
      if tok.head? = some quoteChar ∧ tok.getLast? = some quoteChar then tok
      else if tok.map upperChar ∈ booleanOps then tok.map upperChar
      else quoteChar :: tok ++ [quoteChar])
    if parts = [] then [quoteChar, quoteChar] else joinSep [' '] parts

/-- src/krang/sqlite_store.py `SQLiteNoteStore.search`: compiles the raw
query with `_escape_fts`, then executes the match statement (the engine
capability also receives the query so it can apply the SQL metadata
filters); matching rows are ordered by bm25 ascending, paged with
OFFSET/LIMIT, and mapped to results with `score = abs(bm25)`.  There is no
exception handler anywhere in the body: an engine failure propagates to the
caller. -/
def search (engine : List Char → SearchQuery → Except Kraang.EngineError (List NoteHit))
    (q : SearchQuery) : Except Kraang.EngineError SearchResponse :=
  match engine (escape_fts q.query) q with
  | .error e => .error e
  | .ok rows =>
    let ordered := orderByAsc (fun r => r.score) rows
    let page := (ordered.drop q.offset).take q.limit
    .ok ⟨page.map (fun r => ⟨r.note, |r.score|, r.snip⟩), rows.length, q.query⟩

/-- Highlight markers for snippet generation (src/krang/search.py
HIGHLIGHT_OPEN / HIGHLIGHT_CLOSE). -/
def HIGHLIGHT_OPEN : List Char := ['>', '>', '>']

/-- Closing highlight marker. -/
def HIGHLIGHT_CLOSE : List Char := ['<', '<', '<']

/-- Python `t.strip('"')`: remove leading and trailing double quotes. -/
def stripQuotes (s : List Char) : List Char :=
  ((s.dropWhile (fun c => c = quoteChar)).reverse.dropWhile (fun c => c = quoteChar)).reverse

/-- Python `s.lower()` (ASCII model). -/
def toLowerL (s : List Char) : List Char := s.map lowerChar

/-- Python `hay.find(needle)`: index of the leftmost occurrence of `needle`
as a substring of `hay`, or `none` (Python -1) when it does not occur. -/
def findSub (needle : List Char) : List Char → Option Nat
  | [] => if needle = [] then some 0 else none
  | c :: rest =>
    if needle.isPrefixOf (c :: rest) then some 0
    else (findSub needle rest).map (fun n => n + 1)

/-- The `re.sub(re.escape(term), IGNORECASE)` highlighting pass: wrap every
non-overlapping, left-to-right, case-insensitive occurrence of `term` (a
lower-cased, non-empty string) with the highlight markers; the inserted
markers are not rescanned.  The fuel argument bounds the scan and always
suffices (each step consumes at least one character). -/
def highlightAllAux (term : List Char) : Nat → List Char → List Char
  | 0, s => s
  | _ + 1, [] => []
  | fuel + 1, c :: rest =>
    if term ≠ [] ∧ toLowerL ((c :: rest).take term.length) = term then
      HIGHLIGHT_OPEN ++ (c :: rest).take term.length ++ HIGHLIGHT_CLOSE ++
        highlightAllAux term fuel ((c :: rest).drop term.length)
    else
      c :: highlightAllAux term fuel rest

/-- Wrap every case-insensitive occurrence of `term` in `window` with the
highlight markers. -/
def highlightAll (term window : List Char) : List Char :=
  highlightAllAux term window.length window

/-- The term cleaning of `generate_snippet`: strip wrapping quotes, drop
terms that become empty, lower-case the rest
(`[t.strip('"').lower() for t in query_terms if t.strip('"')]`). -/
def cleanSnippetTerms (query_terms : List (List Char)) : List (List Char) :=
  query_terms.filterMap (fun t =>
    if stripQuotes t = [] then none else some (toLowerL (stripQuotes t)))

/-- src/krang/search.py `generate_snippet`: a substring of `content` of at
most `max_length` characters centred on the first query-term match, with
highlight markers around matched terms, or the first `max_length` characters
when there is no match.  Natural-number subtraction models Python's
`max(0, ...)` clamps. -/
def generate_snippet (content : List Char) (query_terms : List (List Char))
    (max_length : Nat) : List Char :=
  if content = [] ∨ query_terms = [] then content.take max_length
  else
    let lower_content := toLowerL content
    let clean_terms := cleanSnippetTerms query_terms
    let first_pos := clean_terms.foldl (fun fp term =>
      match findSub term lower_content with
      | some pos => if pos < fp then pos else fp
      | none => fp) content.length
    if first_pos = content.length then content.take max_length
    else
      let half := max_length / 2
      let start0 := first_pos - half
      let stop := min content.length (start0 + max_length)
      let start := if stop = content.length then stop - max_length else start0
      let window := (content.drop start).take (stop - start)
      let window := clean_terms.foldl (fun w term => highlightAll term w) window
      (if 0 < start then ['.', '.', '.'] else []) ++ window ++
        (if stop < content.length then ['.', '.', '.'] else [])

/-- src/krang/search.py `STOP_WORDS`. -/
def STOP_WORDS : List (List Char) :=
  ["a", "an", "the", "is", "are", "was", "were", "be", "been", "being",
   "have", "has", "had", "do", "does", "did", "will", "would", "could",
   "should", "may", "might", "can", "shall", "of", "in", "to", "for",
   "with", "on", "at", "by", "from", "about", "into", "through", "during",
   "before", "after", "above", "below", "between", "out", "off", "over",
   "under", "again", "further", "then", "once", "and", "but", "or", "nor",
   "not", "so", "yet", "both", "each", "few", "more", "most", "other",
   "some", "such", "no", "only", "own", "same", "than", "too", "very",
   "just", "because", "as", "until", "while", "if", "that", "this", "it",
   "its", "he", "she", "they", "them", "we", "you", "i", "me", "my", "his",
   "her", "our", "your", "their", "what", "which", "who", "whom", "how",
   "when", "where", "why", "all", "any", "also", "here", "there"].map
    String.toList

/-- ASCII alphanumeric character (regex `[A-Za-z0-9]`). -/
def isAsciiAlnum (c : Char) : Bool :=
  ('a' ≤ c ∧ c ≤ 'z') ∨ ('A' ≤ c ∧ c ≤ 'Z') ∨ ('0' ≤ c ∧ c ≤ '9')

/-- Python `re.findall(r"[A-Za-z0-9]+", s)`: the maximal alphanumeric runs
of `s` in order.  `cur` holds the current run reversed. -/
def alnumRunsAux : List Char → List Char → List (List Char)
  | [], cur => if cur = [] then [] else [cur.reverse]
  | c :: rest, cur =>
    if isAsciiAlnum c then alnumRunsAux rest (c :: cur)
    else (if cur = [] then [] else [cur.reverse]) ++ alnumRunsAux rest []

/-- Python `re.findall(r"[A-Za-z0-9]+", s)`. -/
def alnumRuns (s : List Char) : List (List Char) := alnumRunsAux s []

/-- Python `dict.fromkeys(xs)` keys: deduplicate, keeping the first
occurrence of each element. -/
def dedupKeepFirst (seen : List (List Char)) : List (List Char) → List (List Char)
  | [] => []
  | x :: xs =>
    if x ∈ seen then dedupKeepFirst seen xs
    else x :: dedupKeepFirst (seen ++ [x]) xs

/-- The candidate-term extraction of `find_related`: lower-cased alphanumeric
title words that are not stop words and are longer than one character,
followed by the lower-cased tags, deduplicated keeping first occurrences. -/
def relatedTerms (note : Note) : List (List Char) :=
  let title_words := (alnumRuns note.title).filterMap (fun w =>
    if toLowerL w ∉ STOP_WORDS ∧ 1 < w.length then some (toLowerL w) else none)
  dedupKeepFirst [] (title_words ++ note.tags.map toLowerL)

/-- src/krang/search.py `find_related`: with no candidate terms, return the
empty list without touching the store; otherwise OR-join the quoted terms,
run a search with `limit + 1` results (the `SearchQuery` construction
validates its fields and can raise), drop the originating note by id and
truncate to `limit`.  The store capability is the `search` function
argument. -/
def find_related (note : Note) (search : SearchQuery → SearchResponse)
    (limit : Nat) : Except ValidationError (List SearchResult) :=
  let all_terms := relatedTerms note
  if all_terms = [] then .ok []
  else
    let fts_query :=
      joinSep [' ', 'O', 'R', ' ']
        (all_terms.map (fun t => quoteChar :: t ++ [quoteChar]))
    match SearchQuery.make fts_query [] none none none none (limit + 1) 0 with
    | .error e => .error e
    | .ok query =>
      let response := search query
      .ok ((response.results.filter (fun r => r.note.note_id ≠ note.note_id)).take limit)

end Krang

/-- A concrete note for witnessing the scoring theorem: relevance one half. -/
def wNote : Kraang.Note :=
  ⟨['n', '1'], ['T'], ['c'], [], [], 1/2, 0, 0⟩

/-- A concrete engine row for `wNote` with raw bm25 score -4. -/
def wNoteHit : Kraang.NoteHit := ⟨wNote, -4, ['s']⟩

/-- A one-row note engine. -/
def wEngineN : List Char → Except Kraang.EngineError (List Kraang.NoteHit) :=
  fun _ => .ok [wNoteHit]

/-- A concrete session. -/
def wSession : Kraang.Session :=
  ⟨['s', '1'], [], ['p'], ['m'], ['u'], ['a'], 0, 1⟩

/-- A concrete engine row for `wSession` with raw bm25 score -3. -/
def wSessionHit : Kraang.SessionHit := ⟨wSession, -3, []⟩

/-- A one-row session engine. -/
def wEngineS : List Char → Except Kraang.EngineError (List Kraang.SessionHit) :=
  fun _ => .ok [wSessionHit]

/-- A concrete query for exercising the krang search path. -/
def wQuery : Krang.SearchQuery :=
  ⟨['x'], [], none, none, none, none, 20, 0⟩

/-- An engine that rejects every compiled expression as malformed. -/
def wBadEngine : List Char → Krang.SearchQuery → Except Kraang.EngineError (List Krang.NoteHit) :=
  fun _ _ => .error .malformedQuery

/-- A note engine that always fails. -/
def wBadEngineN : List Char → Except Kraang.EngineError (List Kraang.NoteHit) :=
  fun _ => .error .malformedQuery

/-- A session engine that always fails. -/
def wBadEngineS : List Char → Except Kraang.EngineError (List Kraang.SessionHit) :=
  fun _ => .error .malformedQuery

/-- A concrete note with two candidate terms. -/
def wRelNote : Krang.Note :=
  ⟨['n', '7'], "python guide".toList, ['c'], [], [], .active, 0, 0, []⟩

/-- A concrete note whose title is all stop words (no candidate terms). -/
def wStopNote : Krang.Note :=
  ⟨['n', '8'], "the a is".toList, ['c'], [], [], .active, 0, 0, []⟩

/-- A store capability returning no hits. -/
def wEmptySearch : Krang.SearchQuery → Krang.SearchResponse :=
  fun q => ⟨[], 0, q.query⟩

/-- A stored session with a 36-character identifier of all a characters. -/
def wSessA : Kraang.Session := ⟨List.replicate 36 'a', [], ['p'], [], [], [], 0, 0⟩

/-- A second stored session sharing a long identifier prefix with `wSessA`. -/
def wSessB : Kraang.Session := ⟨List.replicate 35 'a' ++ ['b'], [], ['p'], [], [], [], 0, 0⟩

/-- The concrete input refuting two-pass stabilization: a literal NUL-digit
pattern in the bare text collides with the placeholder of the first stashed
phrase, and a NUL-digit pattern inside a phrase collides with a later
placeholder, so three passes and two passes of the sanitizer still differ. -/
def c9input : List Char :=
  [nulChar, '0', nulChar, ' ', '"', 'a', '"', ' ', '"', 'x', nulChar, '3', nulChar, 'y',
   '"', ' ', '"', ':', '"']

/-- Left-to-right scan deciding that no unsafe character lies outside a
quoted span.  Quotes are paired greedily (first with second, third with
fourth, ...), which for a string with evenly many quotes is exactly the
quoted-phrase span structure of the match grammar; characters between a
pair are inside a span, everything else is outside. -/
def scanSafeAux : Bool → List Char → Bool
  | _, [] => true
  | inside, c :: rest =>
    if c = quoteChar then scanSafeAux (!inside) rest
    else if isUnsafe c && !inside then false
    else scanSafeAux inside rest

/-- No unsafe character outside a quoted-phrase span. -/
def noUnsafeOutsideSpans (s : List Char) : Bool := scanSafeAux false s

/-- A well-formed emitted part: a quoted span with quote-free content, or
one of the boolean operators. -/
def GoodPart (p : List Char) : Prop :=
  (∃ v, p = quoteChar :: v ++ [quoteChar] ∧ quoteChar ∉ v) ∨ p ∈ booleanOps

/-- A well-formed token: a phrase is a quoted span with quote-free content,
a word is quote-free. -/
def goodTok : Tok → Prop
  | .phrase v => ∃ c, v = quoteChar :: c ++ [quoteChar] ∧ quoteChar ∉ c
  | .word v => quoteChar ∉ v

/-- Minimum of a list of naturals, `none` when empty (specification-side
helper for the earliest match offset). -/
def minOpt : List Nat → Option Nat
  | [] => none
  | x :: xs => some (match minOpt xs with | none => x | some m => min x m)

/-- The earliest character offset at which any of the terms occurs in the
haystack — the specification's first_match_offset. -/
def earliestMatch (terms : List (List Char)) (hay : List Char) : Option Nat :=
  minOpt (terms.filterMap (fun t => Krang.findSub t hay))

/-- The claim's window stop: the window never runs past the end of the
content (stop = min(length, start + max_length) with start = max(0,
offset − max_length/2), natural subtraction giving the clamp at zero). -/
def snipStop (content : List Char) (m max_length : Nat) : Nat :=
  min content.length (m - max_length / 2 + max_length)

/-- The claim's window start: max(0, offset − max_length/2), shifted left to
max(0, length − max_length) when the window is clipped at the end of the
content. -/
def snipStart (content : List Char) (m max_length : Nat) : Nat :=
  if snipStop content m max_length = content.length then content.length - max_length
  else m - max_length / 2

/-! ## Helper lemmas -/

theorem mem_insertAscBy {key : α → ℚ} {x a : α} {l : List α} :
    a ∈ insertAscBy key x l ↔ a = x ∨ a ∈ l := by
  induction l with
  | nil => simp [insertAscBy]
  | cons y ys ih =>
    simp only [insertAscBy]
    split
    · simp
    · simp [ih]
      tauto

theorem mem_orderByAsc {key : α → ℚ} {a : α} {l : List α} :
    a ∈ orderByAsc key l ↔ a ∈ l := by
  induction l with
  | nil => simp [orderByAsc]
  | cons x xs ih =>
    simp [orderByAsc, mem_insertAscBy, ih]

/-! ## C1 — note search scoring -/

/-- C1: every note search result's final score is the absolute value of the
raw engine (bm25) score times the note's relevance; notes with relevance 0
are excluded before scoring and never appear at any rank (every returned
result has positive relevance); session results have no relevance
multiplier, so their final score is just the absolute value of the raw
engine score. -/
theorem search_scoring_spec
    (engineN : List Char → Except Kraang.EngineError (List Kraang.NoteHit))
    (engineS : List Char → Except Kraang.EngineError (List Kraang.SessionHit))
    (expr : List Char) (limit : Nat) :
    (∀ r ∈ Kraang.search_notes engineN expr limit,
      0 < r.note.relevance ∧
      ∃ rows, engineN expr = .ok rows ∧
        ∃ h ∈ rows, 0 < h.note.relevance ∧ r.note = h.note ∧
          r.score = |h.score| * h.note.relevance) ∧
    (∀ r ∈ Kraang.search_sessions engineS expr limit,
      ∃ rows, engineS expr = .ok rows ∧
        ∃ h ∈ rows, r.session = h.session ∧ r.score = |h.score|) := by
  constructor
  · intro r hr
    unfold Kraang.search_notes at hr
    cases hok : engineN expr with
    | error e => rw [hok] at hr; simp at hr
    | ok rows =>
      rw [hok] at hr
      unfold Kraang.scoreNoteRows at hr
      simp only [List.mem_map] at hr
      obtain ⟨h, hmem, heq⟩ := hr
      have h1 : h ∈ orderByAsc (fun r => r.score * r.note.relevance)
          (rows.filter (fun r => 0 < r.note.relevance)) := List.take_subset _ _ hmem
      rw [mem_orderByAsc] at h1
      rw [List.mem_filter] at h1
      obtain ⟨hrow, hrel⟩ := h1
      have hrel' : 0 < h.note.relevance := by simpa using hrel
      refine ⟨by rw [← heq]; exact hrel', rows, rfl, h, hrow, hrel', ?_, ?_⟩
      · rw [← heq]
      · rw [← heq]
  · intro r hr
    unfold Kraang.search_sessions at hr
    cases hok : engineS expr with
    | error e => rw [hok] at hr; simp at hr
    | ok rows =>
      rw [hok] at hr
      unfold Kraang.scoreSessionRows at hr
      simp only [List.mem_map] at hr
      obtain ⟨h, hmem, heq⟩ := hr
      have h1 : h ∈ orderByAsc (fun r : Kraang.SessionHit => r.score) rows :=
        List.take_subset _ _ hmem
      rw [mem_orderByAsc] at h1
      exact ⟨rows, rfl, h, h1, by rw [← heq], by rw [← heq]⟩

/-- Witness for C1 at a concrete search: the returned note scores
abs(-4) * (1/2) = 2 and the returned session scores abs(-3) = 3. -/
theorem search_scoring_spec_witness :
    (0 < (⟨wNote, 2, ['s']⟩ : Kraang.NoteSearchResult).note.relevance ∧
      ∃ rows, wEngineN ['q'] = .ok rows ∧
        ∃ h ∈ rows, 0 < h.note.relevance ∧
          (⟨wNote, 2, ['s']⟩ : Kraang.NoteSearchResult).note = h.note ∧
          (⟨wNote, 2, ['s']⟩ : Kraang.NoteSearchResult).score =
            |h.score| * h.note.relevance) ∧
    (∃ rows, wEngineS ['q'] = .ok rows ∧
      ∃ h ∈ rows, (⟨wSession, 3, []⟩ : Kraang.SessionSearchResult).session = h.session ∧
        (⟨wSession, 3, []⟩ : Kraang.SessionSearchResult).score = |h.score|) :=
  ⟨(search_scoring_spec wEngineN wEngineS ['q'] 5).1 ⟨wNote, 2, ['s']⟩ (by
      have : Kraang.search_notes wEngineN ['q'] 5 = [⟨wNote, 2, ['s']⟩] := by
        simp [Kraang.search_notes, Kraang.scoreNoteRows, orderByAsc, insertAscBy,
          wEngineN, wNoteHit, wNote]
        norm_num
      simp [this]),
   (search_scoring_spec wEngineN wEngineS ['q'] 5).2 ⟨wSession, 3, []⟩ (by
      have : Kraang.search_sessions wEngineS ['q'] 5 = [⟨wSession, 3, []⟩] := by
        simp [Kraang.search_sessions, Kraang.scoreSessionRows, orderByAsc, insertAscBy,
          wEngineS, wSessionHit, wSession]
      simp [this])⟩

/-! ## C5 — fail-soft search on engine errors -/

/-- Counterexample to C5 as stated: src/krang/sqlite_store.py
`SQLiteNoteStore.search` has no exception handler, so when the engine
rejects the compiled expression the error propagates to the caller instead
of becoming an empty result list. -/
theorem krang_search_propagates_cex :
    Krang.search wBadEngine wQuery = .error .malformedQuery ∧
    ∀ resp, Krang.search wBadEngine wQuery ≠ .ok resp := by
  constructor
  · rfl
  · intro resp h
    simp [Krang.search, wBadEngine] at h

/-- C5 (amended): the kraang store's search operations are fail-soft — both
`search_notes` and `search_sessions` wrap the engine call in try/except and
return the empty result list when the engine rejects the compiled
expression; the older krang `SQLiteNoteStore.search` does not (see the
counterexample). -/
theorem kraang_search_fail_soft
    (engineN : List Char → Except Kraang.EngineError (List Kraang.NoteHit))
    (engineS : List Char → Except Kraang.EngineError (List Kraang.SessionHit))
    (expr : List Char) (limit : Nat) (e e' : Kraang.EngineError)
    (hN : engineN expr = .error e) (hS : engineS expr = .error e') :
    Kraang.search_notes engineN expr limit = [] ∧
    Kraang.search_sessions engineS expr limit = [] := by
  constructor
  · unfold Kraang.search_notes
    rw [hN]
  · unfold Kraang.search_sessions
    rw [hS]

/-- Witness for the fail-soft theorem at a concrete failing engine. -/
theorem kraang_search_fail_soft_witness :
    Kraang.search_notes wBadEngineN ['q'] 10 = [] ∧
    Kraang.search_sessions wBadEngineS ['q'] 10 = [] :=
  kraang_search_fail_soft wBadEngineN wBadEngineS ['q'] 10 .malformedQuery .malformedQuery
    rfl rfl

/-! ## C7 / C10 — find_related -/

/-- C7: with zero candidate terms (after stop-word and short-token filtering
of the title plus the tags), `find_related` returns the empty list without
invoking the store; whenever it returns a result list, no result carries the
originating note's identifier and the list has at most `limit` entries. -/
theorem find_related_spec (note : Krang.Note)
    (search : Krang.SearchQuery → Krang.SearchResponse) (limit : Nat) :
    (Krang.relatedTerms note = [] → Krang.find_related note search limit = .ok []) ∧
    (∀ res, Krang.find_related note search limit = .ok res →
      (∀ r ∈ res, r.note.note_id ≠ note.note_id) ∧ res.length ≤ limit) := by
  constructor
  · intro h
    unfold Krang.find_related
    rw [h]
    rfl
  · intro res hres
    unfold Krang.find_related at hres
    by_cases hterms : Krang.relatedTerms note = []
    · rw [hterms] at hres
      simp at hres
      subst hres
      simp
    · simp only [if_neg hterms] at hres
      cases hmk : Krang.SearchQuery.make
          (joinSep [' ', 'O', 'R', ' ']
            ((Krang.relatedTerms note).map (fun t => quoteChar :: t ++ [quoteChar])))
          [] none none none none (limit + 1) 0 with
      | error e => rw [hmk] at hres; simp at hres
      | ok q =>
        rw [hmk] at hres
        simp only [Except.ok.injEq] at hres
        subst hres
        constructor
        · intro r hr
          have h1 := List.take_subset _ _ hr
          rw [List.mem_filter] at h1
          simpa using h1.2
        · calc (((search q).results.filter _).take limit).length ≤ limit :=
            (List.length_take_le _ _).trans_eq' rfl

/-- Witness for C7: a stop-word-only note yields the empty list, and a
note with candidate terms yields a (here empty) result list within bounds. -/
theorem find_related_spec_witness :
    Krang.find_related wStopNote wEmptySearch 5 = .ok [] ∧
    ((∀ r ∈ ([] : List Krang.SearchResult), r.note.note_id ≠ wRelNote.note_id) ∧
      ([] : List Krang.SearchResult).length ≤ 5) :=
  ⟨(find_related_spec wStopNote wEmptySearch 5).1 (by rfl),
   (find_related_spec wRelNote wEmptySearch 5).2 [] (by rfl)⟩

/-- The compiled OR-query of a non-empty term list is non-empty (it starts
with the opening quote of the first term). -/
theorem joinSep_quoted_ne_nil {terms : List (List Char)} (h : terms ≠ []) :
    joinSep [' ', 'O', 'R', ' ']
      (terms.map (fun t => quoteChar :: t ++ [quoteChar])) ≠ [] := by
  cases terms with
  | nil => exact absurd rfl h
  | cons t ts =>
    cases ts with
    | nil => simp [joinSep]
    | cons u us => simp [joinSep]

/-- Constructing a `SearchQuery` with limit 100 + 1 fails validation. -/
theorem SearchQuery_make_101 (q : List Char) (hq : q ≠ []) :
    Krang.SearchQuery.make q [] none none none none (100 + 1) 0 =
      .error .limitOutOfRange := by
  have h1 : ¬ (q.length < 1) := by
    have := List.length_pos.mpr hq
    omega
  simp [Krang.SearchQuery.make, h1]

/-- Constructing a `SearchQuery` with a non-empty query and a limit between
1 and 100 succeeds. -/
theorem SearchQuery_make_ok (q : List Char) (hq : q ≠ []) (limit offset : Nat)
    (h1 : 1 ≤ limit) (h2 : limit ≤ 100) :
    Krang.SearchQuery.make q [] none none none none limit offset =
      .ok ⟨q, [], none, none, none, none, limit, offset⟩ := by
  have hl : ¬ (q.length < 1) := by
    have := List.length_pos.mpr hq
    omega
  have hlim : ¬ (limit < 1 ∨ 100 < limit) := by omega
  simp [Krang.SearchQuery.make, hl, hlim]
  omega

/-- C10: `find_related` builds its internal `SearchQuery` with `limit + 1`,
and the `SearchQuery` model caps `limit` at 100; so for every note with at
least one candidate term, calling `find_related` with `limit = 100` yields
the validation error instead of a result list, while every `limit` up to 99
returns a result list. -/
theorem find_related_limit_boundary (note : Krang.Note)
    (search : Krang.SearchQuery → Krang.SearchResponse)
    (h : Krang.relatedTerms note ≠ []) :
    Krang.find_related note search 100 = .error .limitOutOfRange ∧
    ∀ limit : Nat, limit ≤ 99 → ∃ res, Krang.find_related note search limit = .ok res := by
  have hq : joinSep [' ', 'O', 'R', ' ']
      ((Krang.relatedTerms note).map (fun t => quoteChar :: t ++ [quoteChar])) ≠ [] :=
    joinSep_quoted_ne_nil h
  constructor
  · unfold Krang.find_related
    rw [if_neg h]
    simp only [SearchQuery_make_101 _ hq]
  · intro limit hlim
    unfold Krang.find_related
    rw [if_neg h]
    simp only [SearchQuery_make_ok _ hq (limit + 1) 0 (by omega) (by omega)]
    exact ⟨_, rfl⟩

/-- Witness for C10 at a concrete note with candidate terms. -/
theorem find_related_limit_boundary_witness :
    Krang.find_related wRelNote wEmptySearch 100 = .error .limitOutOfRange ∧
    ∀ limit : Nat, limit ≤ 99 →
      ∃ res, Krang.find_related wRelNote wEmptySearch limit = .ok res :=
  find_related_limit_boundary wRelNote wEmptySearch (by decide)

/-! ## C8 — ambiguous prefix lookup -/

/-- Counterexample to C8 as stated: on an ambiguous prefix the lookup does
raise, but the error payload holds the first 12 characters of each matching
identifier, not the full identifiers. -/
theorem get_session_truncated_cex :
    Kraang.get_session [wSessA, wSessB] ['a', 'a'] =
      .error [List.replicate 12 'a', List.replicate 12 'a'] ∧
    List.replicate 12 'a' ≠ wSessA.session_id ∧
    List.replicate 12 'a' ≠ wSessB.session_id := by
  refine ⟨by rfl, by decide, by decide⟩

/-- C8 (amended): a short-prefix lookup matching no stored session returns
the absence value (never an error); matching exactly one returns that
session; matching two or more raises the recoverable error carrying the
12-character prefixes of the first two matching identifiers (the SQL fetches
at most two candidate rows). -/
theorem get_session_prefix_lookup (sessions : List Kraang.Session) (pfx : List Char)
    (hlen : pfx.length < 36) :
    (sessions.filter (fun s => pfx.isPrefixOf s.session_id) = [] →
      Kraang.get_session sessions pfx = .ok none) ∧
    (∀ s, sessions.filter (fun s => pfx.isPrefixOf s.session_id) = [s] →
      Kraang.get_session sessions pfx = .ok (some s)) ∧
    (∀ s1 s2 rest, sessions.filter (fun s => pfx.isPrefixOf s.session_id) = s1 :: s2 :: rest →
      Kraang.get_session sessions pfx =
        .error [s1.session_id.take 12, s2.session_id.take 12]) := by
  refine ⟨fun h => ?_, fun s h => ?_, fun s1 s2 rest h => ?_⟩ <;>
    · unfold Kraang.get_session
      rw [if_pos hlen, h]
      rfl

/-- Witness for the prefix-lookup theorem: the empty store yields `none`, a
single match yields that session, a double match yields the truncated
candidate list. -/
theorem get_session_prefix_lookup_witness :
    (Kraang.get_session [] ['a', 'a'] = .ok none) ∧
    (Kraang.get_session [wSessA] ['a', 'a'] = .ok (some wSessA)) ∧
    (Kraang.get_session [wSessA, wSessB] ['a', 'a'] =
      .error [wSessA.session_id.take 12, wSessB.session_id.take 12]) :=
  ⟨(get_session_prefix_lookup [] ['a', 'a'] (by decide)).1 (by rfl),
   (get_session_prefix_lookup [wSessA] ['a', 'a'] (by decide)).2.1 wSessA (by rfl),
   (get_session_prefix_lookup [wSessA, wSessB] ['a', 'a'] (by decide)).2.2 wSessA wSessB []
     (by rfl)⟩

/-! ## Quote-counting lemmas for the sanitizer -/

theorem quoteCount_nil : quoteCount [] = 0 := rfl

theorem quoteCount_cons (c : Char) (s : List Char) :
    quoteCount (c :: s) = quoteCount s + (if c = quoteChar then 1 else 0) := by
  simp [quoteCount, List.count_cons]

theorem quoteCount_append (a b : List Char) :
    quoteCount (a ++ b) = quoteCount a + quoteCount b := by
  simp [quoteCount, List.count_append]

theorem quoteCount_reverse (s : List Char) : quoteCount s.reverse = quoteCount s := by
  simp [quoteCount]

/-- A string whose quote count is zero contains no quote. -/
theorem not_mem_of_quoteCount_zero {s : List Char} (h : quoteCount s = 0) :
    quoteChar ∉ s := by
  simp only [quoteCount, List.count_eq_zero] at h
  exact h

/-- Dropping all quotes leaves a string with no quotes. -/
theorem quoteCount_filter_ne (s : List Char) :
    quoteCount (s.filter (fun c => c ≠ quoteChar)) = 0 := by
  simp only [quoteCount, List.count_eq_zero]
  intro hmem
  rw [List.mem_filter] at hmem
  simpa using hmem.2

/-- Stashing is the identity on strings with no quotes. -/
theorem stashAux_no_quote {s : List Char} (phs : List (List Char)) (fuel : Nat)
    (h : quoteCount s = 0) : stashAux fuel s phs = (s, phs) := by
  induction fuel generalizing s phs with
  | zero => rfl
  | succ fuel ih =>
    cases s with
    | nil => rfl
    | cons c rest =>
      rw [quoteCount_cons] at h
      have hc : c ≠ quoteChar := by
        intro hceq
        simp [hceq] at h
      have hrest : quoteCount rest = 0 := by omega
      simp only [stashAux, if_neg hc]
      rw [ih phs hrest]

/-- Blanking unsafe characters does not change the quote count (a quote is
not unsafe, and every replacement is a space). -/
theorem quoteCount_unsafeSub (s : List Char) : quoteCount (unsafeSub s) = quoteCount s := by
  induction s with
  | nil => rfl
  | cons c rest ih =>
    simp only [unsafeSub, List.map_cons] at *
    rw [quoteCount_cons, quoteCount_cons, ih]
    by_cases hc : isUnsafe c
    · have : c ≠ quoteChar := by
        intro hq
        rw [hq] at hc
        simp [isUnsafe, quoteChar] at hc
      simp [hc, this]
      intro hsp
      exact absurd hsp (by decide)
    · simp [hc]

/-- The split parts carry exactly the quotes of the input. -/
theorem pySplitAux_quoteCount (s cur : List Char) :
    ((pySplitAux s cur).map quoteCount).sum = quoteCount s + quoteCount cur := by
  induction s generalizing cur with
  | nil =>
    by_cases hcur : cur = []
    · simp [pySplitAux, hcur, quoteCount_nil]
    · simp [pySplitAux, hcur, quoteCount_reverse, quoteCount_nil]
  | cons c rest ih =>
    by_cases hsp : pyIsSpace c
    · have hc : c ≠ quoteChar := by
        intro hq
        rw [hq] at hsp
        exact absurd hsp (by decide)
      by_cases hcur : cur = []
      · simp [pySplitAux, hsp, hcur, ih, quoteCount_cons, hc, quoteCount_nil]
      · simp [pySplitAux, hsp, hcur, ih, quoteCount_cons, hc, quoteCount_reverse,
          quoteCount_nil]
        omega
    · simp only [pySplitAux, if_neg hsp]
      rw [ih (c :: cur), quoteCount_cons, quoteCount_cons]
      omega

/-- Joining with single spaces carries exactly the parts' quotes. -/
theorem joinSep_quoteCount (parts : List (List Char)) :
    quoteCount (joinSep [' '] parts) = (parts.map quoteCount).sum := by
  induction parts with
  | nil => rfl
  | cons x xs ih =>
    cases xs with
    | nil => simp [joinSep, quoteCount_nil]
    | cons y rest =>
      simp only [joinSep] at *
      rw [quoteCount_append, quoteCount_append, ih]
      have : quoteCount [' '] = 0 := by decide
      simp [this]

/-- Collapsing whitespace does not change the quote count. -/
theorem quoteCount_collapseWs (s : List Char) : quoteCount (collapseWs s) = quoteCount s := by
  rw [collapseWs, joinSep_quoteCount, pySplit, pySplitAux_quoteCount]
  simp [quoteCount_nil]

/-- On a string with no quotes, the sanitizing pipeline only blanks unsafe
characters and collapses whitespace; in particular its output has no
quotes. -/
theorem sanitizePipeline_no_quote {s : List Char} (h : quoteCount s = 0) :
    sanitizePipeline s = collapseWs (unsafeSub s) ∧
      quoteCount (sanitizePipeline s) = 0 := by
  have hstash : stash s = (s, []) := stashAux_no_quote [] s.length h
  have heq : sanitizePipeline s = collapseWs (unsafeSub s) := by
    simp only [sanitizePipeline, hstash, restoreAux]
  refine ⟨heq, ?_⟩
  rw [heq, quoteCount_collapseWs, quoteCount_unsafeSub, h]

/-! ## C4 — odd-quote recovery -/

/-- Counterexample to C4 as stated: the krang sanitizer (also cited by the
claim) has no odd-quote branch, so an unterminated quote passes straight
through to its output. -/
theorem krang_sanitize_keeps_odd_quote_cex :
    quoteCount ['x', quoteChar] % 2 = 1 ∧
    Krang.sanitize_fts_query ['x', quoteChar] = ['x', quoteChar] := by
  refine ⟨by decide, by rfl⟩

/-- C4 (amended): the kraang sanitizer recovers from an odd number of double
quotes by dropping ALL quote characters and re-running the empty check —
its result on such input equals its result on the quote-stripped input and
contains no quote character at all; the krang variant lacks this branch
(see the counterexample). -/
theorem kraang_sanitize_odd_quote_recovery (raw : List Char)
    (h : quoteCount raw % 2 = 1) :
    Kraang.sanitize_fts_query raw =
      Kraang.sanitize_fts_query (raw.filter (fun c => c ≠ quoteChar)) ∧
    quoteCount (Kraang.sanitize_fts_query raw) = 0 := by
  have hpos : 0 < quoteCount raw := by omega
  have hmem : quoteChar ∈ raw := List.count_pos_iff.mp hpos
  have hnotblank : ¬ raw.all pyIsSpace := by
    intro hall
    have := List.all_eq_true.mp hall quoteChar hmem
    exact absurd this (by decide)
  have hstripped0 : quoteCount (raw.filter (fun c => c ≠ quoteChar)) = 0 :=
    quoteCount_filter_ne raw
  have heq : Kraang.sanitize_fts_query raw =
      Kraang.sanitize_fts_query (raw.filter (fun c => c ≠ quoteChar)) := by
    unfold Kraang.sanitize_fts_query
    rw [if_neg hnotblank, if_pos (by omega : quoteCount raw % 2 ≠ 0)]
    by_cases hblank : (raw.filter (fun c => c ≠ quoteChar)).all pyIsSpace
    · rw [if_pos hblank, if_pos hblank]
    · rw [if_neg hblank, if_neg hblank, if_neg (by omega : ¬ quoteCount
        (raw.filter (fun c => c ≠ quoteChar)) % 2 ≠ 0)]
  refine ⟨heq, ?_⟩
  rw [heq]
  unfold Kraang.sanitize_fts_query
  by_cases hblank : (raw.filter (fun c => c ≠ quoteChar)).all pyIsSpace
  · rw [if_pos hblank]
    rfl
  · rw [if_neg hblank, if_neg (by omega : ¬ quoteCount
      (raw.filter (fun c => c ≠ quoteChar)) % 2 ≠ 0)]
    exact (sanitizePipeline_no_quote hstripped0).2

/-- Witness for the odd-quote recovery at a concrete unterminated-quote
input. -/
theorem kraang_sanitize_odd_quote_recovery_witness :
    quoteCount "odd \" quote".toList % 2 = 1 ∧
    (Kraang.sanitize_fts_query "odd \" quote".toList =
      Kraang.sanitize_fts_query ("odd \" quote".toList.filter (fun c => c ≠ quoteChar)) ∧
     quoteCount (Kraang.sanitize_fts_query "odd \" quote".toList) = 0) :=
  ⟨by decide, kraang_sanitize_odd_quote_recovery "odd \" quote".toList (by decide)⟩

/-! ## C3 — token emission and boolean operators -/

/-- Counterexample to C3 as stated: the token check `value in _BOOLEAN_OPS`
is case-sensitive, so a lower-case `or` — whose upper-case form is the
recognised operator `OR` — is NOT emitted unchanged: it is wrapped in double
quotes like any bare word. -/
theorem build_fts_query_lowercase_op_cex :
    (['o', 'r'].map upperChar ∈ booleanOps) ∧
    emitTok (Tok.word ['o', 'r']) ≠ ['o', 'r'] ∧
    Kraang.build_fts_query "python or async".toList =
      "\"python\" \"or\" \"async\"".toList := by
  refine ⟨by decide, by decide, by rfl⟩

/-- C3 (amended): for every token of the sanitized query, in original
left-to-right order: a quoted phrase, or a word that is literally one of
the upper-case operators AND / OR / NOT, is emitted unchanged; every other
word — including lower-case forms of the operators — is wrapped in double
quotes; the compiled query is the emissions joined by single spaces, and
compile("python OR async") keeps the literal OR with both terms quoted. -/
theorem build_fts_query_emission (raw : List Char) :
    (Kraang.sanitize_fts_query (stripTagTerms raw) ≠ [] →
      Kraang.build_fts_query raw =
        joinSep [' ']
          ((tokenize (Kraang.sanitize_fts_query (stripTagTerms raw))).map emitTok)) ∧
    (∀ v, emitTok (Tok.phrase v) = v) ∧
    (∀ v, v ∈ booleanOps → emitTok (Tok.word v) = v) ∧
    (∀ v, v ∉ booleanOps → emitTok (Tok.word v) = quoteChar :: v ++ [quoteChar]) ∧
    Kraang.build_fts_query "python OR async".toList =
      "\"python\" OR \"async\"".toList := by
  refine ⟨fun h => ?_, fun v => rfl, fun v hv => ?_, fun v hv => ?_, by rfl⟩
  · unfold Kraang.build_fts_query
    rw [if_neg h]
  · simp [emitTok, hv]
  · simp [emitTok, hv]

/-- Witness for the emission theorem at concrete tokens and a concrete
query. -/
theorem build_fts_query_emission_witness :
    (Kraang.build_fts_query "python OR async".toList =
      joinSep [' ']
        ((tokenize (Kraang.sanitize_fts_query
          (stripTagTerms "python OR async".toList))).map emitTok)) ∧
    emitTok (Tok.word ['O', 'R']) = ['O', 'R'] ∧
    emitTok (Tok.word ['o', 'r']) = [quoteChar, 'o', 'r', quoteChar] :=
  ⟨(build_fts_query_emission "python OR async".toList).1 (by decide),
   (build_fts_query_emission "python OR async".toList).2.2.1 ['O', 'R'] (by decide),
   (build_fts_query_emission "python OR async".toList).2.2.2.1 ['o', 'r'] (by decide)⟩

/-! ## Quote parity of the full sanitizing pipeline -/

/-- Every character produced by `natDigitsAux` is a decimal digit, provided
the fuel is at least the number (which `natDigits` guarantees). -/
theorem natDigitsAux_digits (fuel : Nat) :
    ∀ n acc, (n ≤ fuel ∨ n < 10) → (∀ c ∈ acc, ∃ d, d < 10 ∧ c = digitChar d) →
      ∀ c ∈ natDigitsAux fuel n acc, ∃ d, d < 10 ∧ c = digitChar d := by
  induction fuel with
  | zero =>
    intro n acc hn hacc c hc
    have hn10 : n < 10 := by omega
    simp only [natDigitsAux, List.mem_cons] at hc
    rcases hc with hc | hc
    · exact ⟨n, hn10, hc⟩
    · exact hacc c hc
  | succ fuel ih =>
    intro n acc hn hacc c hc
    simp only [natDigitsAux] at hc
    by_cases h10 : n < 10
    · rw [if_pos h10] at hc
      rcases List.mem_cons.mp hc with hc | hc
      · exact ⟨n, h10, hc⟩
      · exact hacc c hc
    · rw [if_neg h10] at hc
      refine ih (n / 10) (digitChar (n % 10) :: acc) (by omega) ?_ c hc
      intro c' hc'
      rcases List.mem_cons.mp hc' with hc' | hc'
      · exact ⟨n % 10, by omega, hc'⟩
      · exact hacc c' hc'

/-- A decimal digit is not a double quote. -/
theorem digitChar_ne_quote {d : Nat} (h : d < 10) : digitChar d ≠ quoteChar := by
  interval_cases d <;> decide

/-- The placeholder for any index contains no double quote. -/
theorem quoteCount_placeholder (idx : Nat) : quoteCount (placeholder idx) = 0 := by
  simp only [quoteCount, List.count_eq_zero]
  intro hmem
  rcases List.mem_cons.mp hmem with h | h
  · exact absurd h (by decide)
  · rcases List.mem_append.mp h with h | h
    · obtain ⟨d, hd, hc⟩ :=
        natDigitsAux_digits idx idx [] (Or.inl le_rfl) (by simp) quoteChar h
      exact absurd hc.symm (digitChar_ne_quote hd)
    · exact absurd (List.mem_singleton.mp h) (by decide)

/-- Replacing occurrences of an even-quoted pattern by an even-quoted
replacement preserves the quote-count parity. -/
theorem replaceAllAux_quote_parity (pat repl : List Char)
    (hpat : quoteCount pat % 2 = 0) (hrepl : quoteCount repl % 2 = 0) (fuel : Nat) :
    ∀ s, quoteCount (replaceAllAux pat repl fuel s) % 2 = quoteCount s % 2 := by
  induction fuel with
  | zero => intro s; rfl
  | succ fuel ih =>
    intro s
    cases s with
    | nil => rfl
    | cons c rest =>
      simp only [replaceAllAux]
      by_cases hpre : pat ≠ [] ∧ pat.isPrefixOf (c :: rest)
      · rw [if_pos hpre]
        obtain ⟨t, ht⟩ := List.isPrefixOf_iff_prefix.mp hpre.2
        have hdrop : (c :: rest).drop pat.length = t := by
          rw [← ht, List.drop_left]
        rw [hdrop, quoteCount_append, ← ht, quoteCount_append] at *
        have := ih t
        omega
      · rw [if_neg hpre]
        rw [quoteCount_cons, quoteCount_cons]
        have := ih rest
        omega

/-- Restoring the stashed phrases preserves the quote-count parity when
every phrase has evenly many quotes (the placeholders have none). -/
theorem restoreAux_quote_parity :
    ∀ (phs : List (List Char)) (idx : Nat) (text : List Char),
      (∀ p ∈ phs, quoteCount p % 2 = 0) →
      quoteCount (restoreAux phs idx text) % 2 = quoteCount text % 2 := by
  intro phs
  induction phs with
  | nil => intro idx text _; rfl
  | cons ph rest ih =>
    intro idx text hphs
    simp only [restoreAux]
    rw [ih (idx + 1) _ (fun p hp => hphs p (List.mem_cons_of_mem _ hp))]
    exact replaceAllAux_quote_parity (placeholder idx) ph
      (by rw [quoteCount_placeholder idx]) (hphs ph (List.mem_cons_self _ _)) _ text

/-- Splitting at the first quote decomposes the string: the prefix is
quote-free and the quote sits between the two parts. -/
theorem splitAtQuote_eq :
    ∀ {s a b : List Char}, splitAtQuote s = some (a, b) →
      s = a ++ quoteChar :: b ∧ quoteChar ∉ a := by
  intro s
  induction s with
  | nil => intro a b h; exact absurd h (by simp [splitAtQuote])
  | cons c rest ih =>
    intro a b h
    simp only [splitAtQuote] at h
    by_cases hc : c = quoteChar
    · rw [if_pos hc] at h
      have h' := Option.some.inj h
      injection h' with h1 h2
      subst h1
      subst h2
      subst hc
      exact ⟨rfl, by simp⟩
    · rw [if_neg hc] at h
      cases hsplit : splitAtQuote rest with
      | none => rw [hsplit] at h; exact Option.noConfusion h
      | some p =>
        rw [hsplit] at h
        obtain ⟨a', b'⟩ := p
        have h' := Option.some.inj h
        injection h' with ha hb
        obtain ⟨hrest, hna⟩ := ih hsplit
        subst ha hb
        refine ⟨by rw [hrest]; rfl, ?_⟩
        intro hmem
        rcases List.mem_cons.mp hmem with hh | hh
        · exact hc hh.symm
        · exact hna hh

/-- A string with no first quote has no quotes at all. -/
theorem splitAtQuote_none :
    ∀ {s : List Char}, splitAtQuote s = none → quoteCount s = 0 := by
  intro s
  induction s with
  | nil => intro _; rfl
  | cons c rest ih =>
    intro h
    simp only [splitAtQuote] at h
    by_cases hc : c = quoteChar
    · rw [if_pos hc] at h
      exact Option.noConfusion h
    · rw [if_neg hc] at h
      cases hsplit : splitAtQuote rest with
      | none =>
        rw [quoteCount_cons, if_neg hc, ih hsplit]
      | some p => rw [hsplit] at h; exact Option.noConfusion h

/-- On input with evenly many quotes and enough fuel, stashing consumes
every quote: the returned text is quote-free and every accumulated phrase
has evenly many quotes. -/
theorem stashAux_even (fuel : Nat) :
    ∀ s phs, s.length ≤ fuel → quoteCount s % 2 = 0 →
      (∀ p ∈ phs, quoteCount p % 2 = 0) →
      quoteCount (stashAux fuel s phs).1 = 0 ∧
        ∀ p ∈ (stashAux fuel s phs).2, quoteCount p % 2 = 0 := by
  induction fuel with
  | zero =>
    intro s phs hlen heven hphs
    have : s = [] := List.length_eq_zero.mp (by omega)
    subst this
    exact ⟨rfl, hphs⟩
  | succ fuel ih =>
    intro s phs hlen heven hphs
    cases s with
    | nil => exact ⟨rfl, hphs⟩
    | cons c rest =>
      by_cases hc : c = quoteChar
      · subst hc
        cases hsplit : splitAtQuote rest with
        | none =>
          have h0 := splitAtQuote_none hsplit
          rw [quoteCount_cons, h0] at heven
          simp at heven
        | some p =>
          obtain ⟨content, after⟩ := p
          obtain ⟨hrest, hnc⟩ := splitAtQuote_eq hsplit
          have hcontent0 : List.count quoteChar content = 0 := List.count_eq_zero.mpr hnc
          have hafter_even : quoteCount after % 2 = 0 := by
            rw [hrest] at heven
            simp [quoteCount, List.count_cons, List.count_append, hcontent0] at heven ⊢
            omega
          have hafter_len : after.length ≤ fuel := by
            have hlen2 : rest.length = content.length + 1 + after.length := by
              rw [hrest]
              simp [List.length_append]
              omega
            simp only [List.length_cons] at hlen
            omega
          have hphrase : quoteCount (quoteChar :: content ++ [quoteChar]) % 2 = 0 := by
            simp [quoteCount, List.count_cons, List.count_append, hcontent0]
          have hphs' : ∀ p ∈ phs ++ [quoteChar :: content ++ [quoteChar]],
              quoteCount p % 2 = 0 := by
            intro p hp
            rcases List.mem_append.mp hp with hp | hp
            · exact hphs p hp
            · rw [List.mem_singleton.mp hp]
              exact hphrase
          have hrec := ih after (phs ++ [quoteChar :: content ++ [quoteChar]])
            hafter_len hafter_even hphs'
          simp only [stashAux, hsplit, eq_self_iff_true, if_true]
          refine ⟨?_, hrec.2⟩
          rw [quoteCount_append, quoteCount_placeholder, hrec.1]
      · have hrest_even : quoteCount rest % 2 = 0 := by
          rw [quoteCount_cons, if_neg hc] at heven
          omega
        have hrec := ih rest phs (by simpa using Nat.le_of_succ_le_succ hlen)
          hrest_even hphs
        simp only [stashAux, if_neg hc]
        refine ⟨?_, hrec.2⟩
        rw [quoteCount_cons, if_neg hc, hrec.1]

/-- The sanitizing pipeline preserves even quote parity. -/
theorem sanitizePipeline_even {s : List Char} (h : quoteCount s % 2 = 0) :
    quoteCount (sanitizePipeline s) % 2 = 0 := by
  unfold sanitizePipeline stash
  obtain ⟨htext, hphs⟩ := stashAux_even s.length s [] le_rfl h (by simp)
  rw [quoteCount_collapseWs, restoreAux_quote_parity _ 0 _ hphs,
    quoteCount_unsafeSub, htext]

/-- The kraang sanitizer always returns a string with evenly many double
quotes; in particular a second pass never takes the odd-quote branch. -/
theorem sanitize_quote_parity (raw : List Char) :
    quoteCount (Kraang.sanitize_fts_query raw) % 2 = 0 := by
  unfold Kraang.sanitize_fts_query
  by_cases hblank : raw.all pyIsSpace
  · rw [if_pos hblank]; rfl
  · rw [if_neg hblank]
    by_cases hodd : quoteCount raw % 2 ≠ 0
    · rw [if_pos hodd]
      by_cases hblank2 : (raw.filter (fun c => c ≠ quoteChar)).all pyIsSpace
      · rw [if_pos hblank2]; rfl
      · rw [if_neg hblank2]
        have h0 := (sanitizePipeline_no_quote (quoteCount_filter_ne raw)).2
        omega
    · rw [if_neg hodd]
      exact sanitizePipeline_even (by omega)

/-! ## Idempotence of the sanitizer on quote-free input -/

/-- After blanking, no unsafe character remains. -/
theorem unsafeSub_no_unsafe {s : List Char} : ∀ c ∈ unsafeSub s, isUnsafe c = false := by
  intro c hc
  obtain ⟨c', _, hc'⟩ := List.mem_map.mp hc
  by_cases hu : isUnsafe c'
  · rw [if_pos hu] at hc'
    rw [← hc']
    rfl
  · rw [if_neg hu] at hc'
    rw [← hc']
    simpa using hu

/-- Blanking is the identity when no character is unsafe. -/
theorem unsafeSub_id {s : List Char} (h : ∀ c ∈ s, isUnsafe c = false) :
    unsafeSub s = s := by
  induction s with
  | nil => rfl
  | cons c rest ih =>
    simp only [unsafeSub, List.map_cons]
    rw [if_neg (by simp [h c (List.mem_cons_self _ _)])]
    exact congrArg (c :: ·) (ih (fun c' hc' => h c' (List.mem_cons_of_mem _ hc')))

/-- Each part produced by splitting is non-empty, consists of non-whitespace
characters, and draws its characters from the input or the accumulator. -/
theorem pySplitAux_facts :
    ∀ (s cur : List Char), (∀ c ∈ cur, pyIsSpace c = false) →
      ∀ p ∈ pySplitAux s cur, p ≠ [] ∧ ∀ c ∈ p, pyIsSpace c = false ∧ (c ∈ s ∨ c ∈ cur) := by
  intro s
  induction s with
  | nil =>
    intro cur hcur p hp
    simp only [pySplitAux] at hp
    by_cases hc : cur = []
    · rw [if_pos hc] at hp
      exact absurd hp (List.not_mem_nil p)
    · rw [if_neg hc] at hp
      rw [List.mem_singleton.mp hp]
      refine ⟨by simpa using hc, ?_⟩
      intro c hcmem
      rw [List.mem_reverse] at hcmem
      exact ⟨hcur c hcmem, Or.inr hcmem⟩
  | cons a rest ih =>
    intro cur hcur p hp
    simp only [pySplitAux] at hp
    by_cases hsp : pyIsSpace a
    · rw [if_pos hsp] at hp
      rcases List.mem_append.mp hp with hp | hp
      · by_cases hc : cur = []
        · rw [if_pos hc] at hp
          exact absurd hp (List.not_mem_nil p)
        · rw [if_neg hc] at hp
          rw [List.mem_singleton.mp hp]
          refine ⟨by simpa using hc, ?_⟩
          intro c hcmem
          rw [List.mem_reverse] at hcmem
          exact ⟨hcur c hcmem, Or.inr hcmem⟩
      · obtain ⟨hne, hchars⟩ := ih [] (by simp) p hp
        refine ⟨hne, ?_⟩
        intro c hcmem
        obtain ⟨hns, hor⟩ := hchars c hcmem
        refine ⟨hns, ?_⟩
        rcases hor with hor | hor
        · exact Or.inl (List.mem_cons_of_mem _ hor)
        · exact absurd hor (List.not_mem_nil c)
    · rw [if_neg hsp] at hp
      have hcur' : ∀ c ∈ a :: cur, pyIsSpace c = false := by
        intro c hcmem
        rcases List.mem_cons.mp hcmem with hcmem | hcmem
        · rw [hcmem]; simpa using hsp
        · exact hcur c hcmem
      obtain ⟨hne, hchars⟩ := ih (a :: cur) hcur' p hp
      refine ⟨hne, ?_⟩
      intro c hcmem
      obtain ⟨hns, hor⟩ := hchars c hcmem
      refine ⟨hns, ?_⟩
      rcases hor with hor | hor
      · exact Or.inl (List.mem_cons_of_mem _ hor)
      · rcases List.mem_cons.mp hor with hor | hor
        · rw [hor]; exact Or.inl (List.mem_cons_self _ _)
        · exact Or.inr hor

/-- Characters of a space-joined list come from the separator space or from
one of the parts. -/
theorem joinSep_mem {c : Char} :
    ∀ {parts : List (List Char)}, c ∈ joinSep [' '] parts →
      c = ' ' ∨ ∃ p ∈ parts, c ∈ p := by
  intro parts
  induction parts with
  | nil => intro h; exact absurd h (List.not_mem_nil c)
  | cons x xs ih =>
    intro h
    cases xs with
    | nil =>
      simp only [joinSep] at h
      exact Or.inr ⟨x, List.mem_singleton_self x, h⟩
    | cons y rest =>
      simp only [joinSep] at h
      rcases List.mem_append.mp h with h | h
      · rcases List.mem_append.mp h with h | h
        · exact Or.inr ⟨x, List.mem_cons_self _ _, h⟩
        · exact Or.inl (List.mem_singleton.mp h)
      · rcases ih h with h | ⟨p, hp, hcp⟩
        · exact Or.inl h
        · exact Or.inr ⟨p, List.mem_cons_of_mem _ hp, hcp⟩

/-- Every character of a whitespace-collapsed string is either the space
separator or a non-whitespace character of the original string. -/
theorem collapseWs_chars {s : List Char} :
    ∀ c ∈ collapseWs s, c = ' ' ∨ (pyIsSpace c = false ∧ c ∈ s) := by
  intro c hc
  rcases joinSep_mem hc with h | ⟨p, hp, hcp⟩
  · exact Or.inl h
  · obtain ⟨_, hchars⟩ := pySplitAux_facts s [] (by simp) p hp
    obtain ⟨hns, hor⟩ := hchars c hcp
    rcases hor with hor | hor
    · exact Or.inr ⟨hns, hor⟩
    · exact absurd hor (List.not_mem_nil c)

/-- Scanning a run of non-whitespace characters just accumulates them. -/
theorem pySplitAux_nonspace_append {x : List Char} (hx : ∀ c ∈ x, pyIsSpace c = false) :
    ∀ (t cur : List Char), pySplitAux (x ++ t) cur = pySplitAux t (x.reverse ++ cur) := by
  induction x with
  | nil => intro t cur; rfl
  | cons a as ih =>
    intro t cur
    have ha : pyIsSpace a = false := hx a (List.mem_cons_self _ _)
    have has : ∀ c ∈ as, pyIsSpace c = false := fun c hc => hx c (List.mem_cons_of_mem _ hc)
    simp only [List.cons_append, pySplitAux, ha]
    rw [if_neg (by simp [ha])]
    show pySplitAux (as ++ t) (a :: cur) = pySplitAux t ((a :: as).reverse ++ cur)
    rw [ih has t (a :: cur)]
    simp

/-- Splitting a space-join of clean parts (non-empty, whitespace-free)
recovers exactly the parts. -/
theorem pySplit_joinSep :
    ∀ (parts : List (List Char)),
      (∀ p ∈ parts, p ≠ [] ∧ ∀ c ∈ p, pyIsSpace c = false) →
      pySplit (joinSep [' '] parts) = parts := by
  intro parts
  induction parts with
  | nil => intro _; rfl
  | cons x xs ih =>
    intro hclean
    obtain ⟨hxne, hxchars⟩ := hclean x (List.mem_cons_self _ _)
    cases xs with
    | nil =>
      show pySplitAux (joinSep [' '] [x]) [] = [x]
      have : joinSep [' '] [x] = x ++ [] := by simp [joinSep]
      rw [this, pySplitAux_nonspace_append hxchars [] []]
      simp only [pySplitAux, List.append_nil]
      rw [if_neg (by simpa using hxne)]
      simp
    | cons y rest =>
      have hxs : ∀ p ∈ y :: rest, p ≠ [] ∧ ∀ c ∈ p, pyIsSpace c = false :=
        fun p hp => hclean p (List.mem_cons_of_mem _ hp)
      show pySplitAux (joinSep [' '] (x :: y :: rest)) [] = x :: y :: rest
      have hshape : joinSep [' '] (x :: y :: rest) =
          x ++ (' ' :: joinSep [' '] (y :: rest)) := by
        simp [joinSep]
      rw [hshape, pySplitAux_nonspace_append hxchars _ []]
      simp only [pySplitAux, List.append_nil]
      rw [if_pos (by decide), if_neg (by simpa using hxne)]
      rw [List.reverse_reverse]
      exact congrArg (x :: ·) (ih hxs)

/-- Collapsing whitespace is idempotent. -/
theorem collapseWs_idem (s : List Char) : collapseWs (collapseWs s) = collapseWs s := by
  unfold collapseWs
  rw [pySplit_joinSep (pySplit s) ?_]
  intro p hp
  obtain ⟨hne, hchars⟩ := pySplitAux_facts s [] (by simp) p hp
  exact ⟨hne, fun c hc => (hchars c hc).1⟩

/-- A non-empty whitespace-collapsed string contains a non-whitespace
character (its parts are non-empty and whitespace-free). -/
theorem collapseWs_all_space_eq_nil {s : List Char}
    (h : (collapseWs s).all pyIsSpace) : collapseWs s = [] := by
  unfold collapseWs at h ⊢
  cases hps : pySplit s with
  | nil => rfl
  | cons p rest =>
    obtain ⟨hne, hchars⟩ := pySplitAux_facts s [] (by simp) p
      (by show p ∈ pySplit s; rw [hps]; exact List.mem_cons_self _ _)
    obtain ⟨c, hc⟩ := List.exists_mem_of_ne_nil p hne
    have hcmem : c ∈ joinSep [' '] (p :: rest) := by
      cases rest with
      | nil => simpa [joinSep] using hc
      | cons q qs =>
        simp only [joinSep]
        exact List.mem_append.mpr (Or.inl (List.mem_append.mpr (Or.inl hc)))
    rw [hps] at h
    have := List.all_eq_true.mp h c hcmem
    rw [(hchars c hc).1] at this
    exact absurd this (by simp)

/-- On quote-free input the kraang sanitizer reduces to blanking unsafe
characters and collapsing whitespace (after the blank check). -/
theorem kraang_sanitize_no_quote_eq (raw : List Char) (h : quoteCount raw = 0) :
    Kraang.sanitize_fts_query raw =
      if raw.all pyIsSpace then [] else collapseWs (unsafeSub raw) := by
  unfold Kraang.sanitize_fts_query
  by_cases hblank : raw.all pyIsSpace
  · rw [if_pos hblank, if_pos hblank]
  · rw [if_neg hblank, if_neg hblank, if_neg (by omega : ¬ quoteCount raw % 2 ≠ 0)]
    exact (sanitizePipeline_no_quote h).1

/-- The kraang sanitizer is idempotent on input with no double quotes. -/
theorem kraang_sanitize_idem_no_quote (raw : List Char) (h : quoteCount raw = 0) :
    Kraang.sanitize_fts_query (Kraang.sanitize_fts_query raw) =
      Kraang.sanitize_fts_query raw := by
  rw [kraang_sanitize_no_quote_eq raw h]
  by_cases hblank : raw.all pyIsSpace
  · rw [if_pos hblank]
    rfl
  · rw [if_neg hblank]
    have h1 : quoteCount (collapseWs (unsafeSub raw)) = 0 := by
      rw [quoteCount_collapseWs, quoteCount_unsafeSub, h]
    rw [kraang_sanitize_no_quote_eq _ h1]
    by_cases hb1 : (collapseWs (unsafeSub raw)).all pyIsSpace
    · rw [if_pos hb1, collapseWs_all_space_eq_nil hb1]
    · rw [if_neg hb1]
      have hnu : ∀ c ∈ collapseWs (unsafeSub raw), isUnsafe c = false := by
        intro c hc
        rcases collapseWs_chars c hc with hc' | ⟨_, hc'⟩
        · rw [hc']
          rfl
        · exact unsafeSub_no_unsafe c hc'
      rw [unsafeSub_id hnu, collapseWs_idem]

/-- Counterexample to C9 as stated: `c9input` has an even number of quotes
(so it never takes the odd-quote branch), yet one sanitizer pass is not
idempotent on it, and even sanitize-three-times differs from
sanitize-twice. -/
theorem sanitize_not_idempotent_cex :
    quoteCount c9input % 2 = 0 ∧
    Kraang.sanitize_fts_query (Kraang.sanitize_fts_query c9input) ≠
      Kraang.sanitize_fts_query c9input ∧
    Kraang.sanitize_fts_query
        (Kraang.sanitize_fts_query (Kraang.sanitize_fts_query c9input)) ≠
      Kraang.sanitize_fts_query (Kraang.sanitize_fts_query c9input) := by
  refine ⟨by decide, by decide, by decide⟩

/-- C9 (amended): the sanitizer's output always has an even number of double
quotes — so the odd-quote-stripping branch can fire only on the first pass —
and the sanitizer is idempotent on every input containing no double quote;
but for inputs mixing quoted phrases with literal NUL characters the
placeholder scheme can collide, and no fixed number of extra passes
stabilizes in general (see the counterexample). -/
theorem sanitize_idempotence_scope (raw : List Char) :
    quoteCount (Kraang.sanitize_fts_query raw) % 2 = 0 ∧
    (quoteCount raw = 0 →
      Kraang.sanitize_fts_query (Kraang.sanitize_fts_query raw) =
        Kraang.sanitize_fts_query raw) :=
  ⟨sanitize_quote_parity raw, kraang_sanitize_idem_no_quote raw⟩

/-- Witness for the amended C9 at a concrete quote-free input. -/
theorem sanitize_idempotence_scope_witness :
    quoteCount (Kraang.sanitize_fts_query "a*b c".toList) % 2 = 0 ∧
    Kraang.sanitize_fts_query (Kraang.sanitize_fts_query "a*b c".toList) =
      Kraang.sanitize_fts_query "a*b c".toList :=
  ⟨(sanitize_idempotence_scope "a*b c".toList).1,
   (sanitize_idempotence_scope "a*b c".toList).2 (by decide)⟩

/-! ## C2 — compiled expression well-formedness -/

/-- While inside a span, the scan skips quote-free characters. -/
theorem scanSafeAux_inside_append {x : List Char} (hx : quoteChar ∉ x) (t : List Char) :
    scanSafeAux true (x ++ t) = scanSafeAux true t := by
  induction x with
  | nil => rfl
  | cons c rest ih =>
    have hc : c ≠ quoteChar := fun h => hx (h ▸ List.mem_cons_self c rest)
    have hrest : quoteChar ∉ rest := fun h => hx (List.mem_cons_of_mem _ h)
    simp only [List.cons_append, scanSafeAux, if_neg hc]
    rw [if_neg (by simp)]
    exact ih hrest

/-- While outside a span, the scan passes over safe non-quote characters. -/
theorem scanSafeAux_outside_append {x : List Char}
    (hx : ∀ c ∈ x, c ≠ quoteChar ∧ isUnsafe c = false) (t : List Char) :
    scanSafeAux false (x ++ t) = scanSafeAux false t := by
  induction x with
  | nil => rfl
  | cons c rest ih =>
    obtain ⟨hc, hu⟩ := hx c (List.mem_cons_self _ _)
    simp only [List.cons_append, scanSafeAux, if_neg hc]
    rw [if_neg (by simp [hu])]
    exact ih (fun c' hc' => hx c' (List.mem_cons_of_mem _ hc'))

/-- A quoted span with quote-free content is transparent to the outside
scan. -/
theorem scanSafeAux_phrase_append {v : List Char} (hv : quoteChar ∉ v) (t : List Char) :
    scanSafeAux false ((quoteChar :: v ++ [quoteChar]) ++ t) = scanSafeAux false t := by
  have hshape : (quoteChar :: v ++ [quoteChar]) ++ t =
      quoteChar :: (v ++ ([quoteChar] ++ t)) := by
    simp
  rw [hshape]
  have h1 : scanSafeAux false (quoteChar :: (v ++ ([quoteChar] ++ t))) =
      scanSafeAux true (v ++ ([quoteChar] ++ t)) := by
    simp [scanSafeAux]
  rw [h1, scanSafeAux_inside_append hv ([quoteChar] ++ t)]
  simp [scanSafeAux]

/-- The characters of the boolean operators are neither quotes nor unsafe. -/
theorem booleanOps_chars : ∀ p ∈ booleanOps, ∀ c ∈ p, c ≠ quoteChar ∧ isUnsafe c = false := by
  decide

/-- A good part followed by anything is transparent to the outside scan. -/
theorem scanSafeAux_goodPart_append {p : List Char} (hp : GoodPart p) (t : List Char) :
    scanSafeAux false (p ++ t) = scanSafeAux false t := by
  rcases hp with ⟨v, rfl, hv⟩ | hop
  · exact scanSafeAux_phrase_append hv t
  · exact scanSafeAux_outside_append (booleanOps_chars p hop) t

/-- A space-join of good parts has no unsafe character outside its quoted
spans. -/
theorem joinSep_goodParts_safe :
    ∀ (parts : List (List Char)), (∀ p ∈ parts, GoodPart p) →
      noUnsafeOutsideSpans (joinSep [' '] parts) = true := by
  intro parts
  induction parts with
  | nil => intro _; rfl
  | cons x xs ih =>
    intro hgood
    have hx := hgood x (List.mem_cons_self _ _)
    cases xs with
    | nil =>
      show scanSafeAux false (joinSep [' '] [x]) = true
      have : joinSep [' '] [x] = x ++ [] := by simp [joinSep]
      rw [this, scanSafeAux_goodPart_append hx]
      rfl
    | cons y rest =>
      show scanSafeAux false (joinSep [' '] (x :: y :: rest)) = true
      have hshape : joinSep [' '] (x :: y :: rest) =
          x ++ ([' '] ++ joinSep [' '] (y :: rest)) := by
        simp [joinSep]
      rw [hshape, scanSafeAux_goodPart_append hx,
        scanSafeAux_outside_append (by decide) (joinSep [' '] (y :: rest))]
      exact ih (fun p hp => hgood p (List.mem_cons_of_mem _ hp))

/-- The quote count of a good part is even. -/
theorem goodPart_quote_even {p : List Char} (hp : GoodPart p) : quoteCount p % 2 = 0 := by
  rcases hp with ⟨v, rfl, hv⟩ | hop
  · have h0 : List.count quoteChar v = 0 := List.count_eq_zero.mpr hv
    simp [quoteCount, List.count_cons, List.count_append, h0]
  · have h0 : quoteCount p = 0 :=
      List.count_eq_zero.mpr (fun hmem => (booleanOps_chars p hop quoteChar hmem).1 rfl)
    rw [h0]

/-- A flushed current word is a good token when the accumulator is
quote-free. -/
theorem goodTok_flush {t : Tok} {cur : List Char} (hcur : quoteChar ∉ cur)
    (ht : t ∈ (if cur = [] then ([] : List Tok) else [Tok.word cur.reverse])) :
    goodTok t := by
  by_cases hc : cur = []
  · rw [if_pos hc] at ht
    exact absurd ht (List.not_mem_nil t)
  · rw [if_neg hc] at ht
    rw [List.mem_singleton.mp ht]
    show quoteChar ∉ cur.reverse
    simpa using hcur

/-- On a string with evenly many quotes, every token the tokenizer emits is
good: phrases are quoted spans with quote-free content and words are
quote-free (an odd leftover quote cannot arise). -/
theorem tokenizeAux_good (fuel : Nat) :
    ∀ s cur, s.length ≤ fuel → quoteCount s % 2 = 0 → quoteChar ∉ cur →
      ∀ t ∈ tokenizeAux fuel s cur, goodTok t := by
  induction fuel with
  | zero =>
    intro s cur hlen heven hcur t ht
    have hs : s = [] := List.length_eq_zero.mp (by omega)
    subst hs
    exact goodTok_flush hcur ht
  | succ fuel ih =>
    intro s cur hlen heven hcur t ht
    cases s with
    | nil => exact goodTok_flush hcur ht
    | cons c rest =>
      by_cases hc : c = quoteChar
      · subst hc
        cases hsplit : splitAtQuote rest with
        | none =>
          have h0 := splitAtQuote_none hsplit
          rw [quoteCount_cons, h0] at heven
          simp at heven
        | some p =>
          obtain ⟨content, after⟩ := p
          obtain ⟨hrest, hnc⟩ := splitAtQuote_eq hsplit
          have hcontent0 : List.count quoteChar content = 0 := List.count_eq_zero.mpr hnc
          have hafter_even : quoteCount after % 2 = 0 := by
            rw [hrest] at heven
            simp [quoteCount, List.count_cons, List.count_append, hcontent0] at heven ⊢
            omega
          have hafter_len : after.length ≤ fuel := by
            have hlen2 : rest.length = content.length + 1 + after.length := by
              rw [hrest]
              simp [List.length_append]
              omega
            simp only [List.length_cons] at hlen
            omega
          simp only [tokenizeAux, hsplit, eq_self_iff_true, if_true] at ht
          rcases List.mem_append.mp ht with ht | ht
          · exact goodTok_flush hcur ht
          · rcases List.mem_cons.mp ht with ht | ht
            · rw [ht]
              exact ⟨content, rfl, hnc⟩
            · exact ih after [] hafter_len hafter_even (List.not_mem_nil _) t ht
      · have hrest_even : quoteCount rest % 2 = 0 := by
          rw [quoteCount_cons, if_neg hc] at heven
          omega
        have hrest_len : rest.length ≤ fuel := by
          simp only [List.length_cons] at hlen
          omega
        by_cases hsp : pyIsSpace c
        · simp only [tokenizeAux, if_neg hc, if_pos hsp] at ht
          rcases List.mem_append.mp ht with ht | ht
          · exact goodTok_flush hcur ht
          · exact ih rest [] hrest_len hrest_even (List.not_mem_nil _) t ht
        · simp only [tokenizeAux, if_neg hc, if_neg hsp] at ht
          have hcur' : quoteChar ∉ c :: cur := by
            intro hmem
            rcases List.mem_cons.mp hmem with hmem | hmem
            · exact hc hmem.symm
            · exact hcur hmem
          exact ih rest (c :: cur) hrest_len hrest_even hcur' t ht

/-- The emission of a good token is a good part. -/
theorem goodPart_emitTok {t : Tok} (ht : goodTok t) : GoodPart (emitTok t) := by
  cases t with
  | phrase v =>
    obtain ⟨c, hv, hc⟩ := ht
    exact Or.inl ⟨c, by rw [emitTok, hv], hc⟩
  | word v =>
    by_cases hop : v ∈ booleanOps
    · rw [emitTok, if_pos hop]
      exact Or.inr hop
    · rw [emitTok, if_neg hop]
      exact Or.inl ⟨v, rfl, ht⟩

/-- A sum of even numbers is even. -/
theorem sum_even {l : List Nat} (h : ∀ n ∈ l, n % 2 = 0) : l.sum % 2 = 0 := by
  induction l with
  | nil => rfl
  | cons x xs ih =>
    have hx := h x (List.mem_cons_self _ _)
    have hxs := ih (fun n hn => h n (List.mem_cons_of_mem _ hn))
    simp only [List.sum_cons]
    omega

/-- A string whose first character does not lower-case to t cannot start a
tag match. -/
theorem matchesTagAt_head {c : Char} {rest : List Char}
    (h : matchesTagAt (c :: rest) = true) : lowerChar c = 't' := by
  rcases rest with _ | ⟨a, _ | ⟨g, _ | ⟨col, _ | ⟨c2, rest2⟩⟩⟩⟩ <;>
    simp [matchesTagAt] at h
  exact h.1

/-- Tag stripping is the identity on strings with no character lower-casing
to t. -/
theorem stripTagsAux_id (fuel : Nat) :
    ∀ prev s, (∀ c ∈ s, lowerChar c ≠ 't') → stripTagsAux fuel prev s = s := by
  induction fuel with
  | zero => intro prev s _; rfl
  | succ fuel ih =>
    intro prev s h
    cases s with
    | nil => rfl
    | cons c rest =>
      have hcond : ¬ (atWordBoundary prev = true ∧ matchesTagAt (c :: rest) = true) := by
        intro ⟨_, h2⟩
        exact h c (List.mem_cons_self _ _) (matchesTagAt_head h2)
      simp only [stripTagsAux]
      rw [if_neg hcond]
      exact congrArg (c :: ·)
        (ih (some c) rest (fun c' hc' => h c' (List.mem_cons_of_mem _ hc')))

/-- Splitting an all-whitespace string yields no parts. -/
theorem pySplitAux_all_space :
    ∀ {s : List Char}, (∀ c ∈ s, pyIsSpace c = true) → pySplitAux s [] = [] := by
  intro s
  induction s with
  | nil => intro _; rfl
  | cons c rest ih =>
    intro h
    have hc := h c (List.mem_cons_self _ _)
    simp only [pySplitAux, if_pos hc, if_pos rfl]
    exact ih (fun c' hc' => h c' (List.mem_cons_of_mem _ hc'))

/-- Collapsing an all-whitespace string gives the empty string. -/
theorem collapseWs_of_all_space {s : List Char} (h : ∀ c ∈ s, pyIsSpace c = true) :
    collapseWs s = [] := by
  unfold collapseWs pySplit
  rw [pySplitAux_all_space h]
  rfl

/-- A whitespace or unsafe character does not lower-case to t. -/
theorem ws_unsafe_not_t {c : Char} (h : pyIsSpace c = true ∨ isUnsafe c = true) :
    lowerChar c ≠ 't' := by
  rcases h with h | h
  · simp [pyIsSpace] at h
    rcases h with rfl | rfl | rfl | rfl | rfl | rfl <;> decide
  · simp [isUnsafe] at h
    rcases h with rfl | rfl | rfl | rfl | rfl | rfl | rfl | rfl | rfl <;> decide

/-- A whitespace or unsafe character is not a double quote. -/
theorem ws_unsafe_not_quote {c : Char} (h : pyIsSpace c = true ∨ isUnsafe c = true) :
    c ≠ quoteChar := by
  rcases h with h | h
  · simp [pyIsSpace] at h
    rcases h with rfl | rfl | rfl | rfl | rfl | rfl <;> decide
  · simp [isUnsafe] at h
    rcases h with rfl | rfl | rfl | rfl | rfl | rfl | rfl | rfl | rfl <;> decide

/-- Counterexample to C2 as stated: the krang compiler (also cited by the
claim) has no odd-quote recovery, so an input with an odd number of quotes
compiles to an expression with an odd (unbalanced) number of quote
characters. -/
theorem krang_build_unbalanced_cex :
    quoteCount ['x', quoteChar] % 2 = 1 ∧
    Krang.build_fts_query ['x', quoteChar] = [quoteChar, 'x', quoteChar, quoteChar] ∧
    quoteCount (Krang.build_fts_query ['x', quoteChar]) % 2 = 1 := by
  refine ⟨by decide, by decide, by decide⟩

/-- C2 (amended): every expression compiled by the kraang build_fts_query is
empty or well-formed — it has an even (balanced) number of double quotes and
no unsafe character outside a quoted-phrase span — and any input consisting
only of whitespace and unsafe characters compiles to the empty string.  The
krang variant satisfies the same except balance: with an odd number of input
quotes it can emit unbalanced quotes (see the counterexample). -/
theorem build_fts_query_wellformed (raw : List Char) :
    quoteCount (Kraang.build_fts_query raw) % 2 = 0 ∧
    noUnsafeOutsideSpans (Kraang.build_fts_query raw) = true ∧
    ((∀ c ∈ raw, pyIsSpace c = true ∨ isUnsafe c = true) →
      Kraang.build_fts_query raw = []) := by
  have hgoodParts : ∀ p ∈ (tokenize
      (Kraang.sanitize_fts_query (stripTagTerms raw))).map emitTok, GoodPart p := by
    intro p hp
    obtain ⟨t, htmem, rfl⟩ := List.mem_map.mp hp
    refine goodPart_emitTok (tokenizeAux_good _ _ [] le_rfl ?_ (List.not_mem_nil _) t htmem)
    exact sanitize_quote_parity _
  refine ⟨?_, ?_, ?_⟩
  · unfold Kraang.build_fts_query
    by_cases hnil : Kraang.sanitize_fts_query (stripTagTerms raw) = []
    · rw [if_pos hnil]
      rfl
    · rw [if_neg hnil, joinSep_quoteCount]
      apply sum_even
      intro n hn
      obtain ⟨p, hp, rfl⟩ := List.mem_map.mp hn
      exact goodPart_quote_even (hgoodParts p hp)
  · unfold Kraang.build_fts_query
    by_cases hnil : Kraang.sanitize_fts_query (stripTagTerms raw) = []
    · rw [if_pos hnil]
      rfl
    · rw [if_neg hnil]
      exact joinSep_goodParts_safe _ hgoodParts
  · intro hall
    have hstrip : stripTagTerms raw = raw :=
      stripTagsAux_id raw.length none raw (fun c hc => ws_unsafe_not_t (hall c hc))
    have hq0 : quoteCount raw = 0 :=
      List.count_eq_zero.mpr (fun hmem => ws_unsafe_not_quote (hall _ hmem) rfl)
    have hsan : Kraang.sanitize_fts_query raw = [] := by
      rw [kraang_sanitize_no_quote_eq raw hq0]
      by_cases hblank : raw.all pyIsSpace
      · rw [if_pos hblank]
      · rw [if_neg hblank]
        apply collapseWs_of_all_space
        intro c hc
        obtain ⟨c', hc', hmap⟩ := List.mem_map.mp hc
        by_cases hu : isUnsafe c'
        · rw [if_pos hu] at hmap
          rw [← hmap]
          rfl
        · rw [if_neg hu] at hmap
          rw [← hmap]
          rcases hall c' hc' with h | h
          · exact h
          · exact absurd h (by simpa using hu)
    unfold Kraang.build_fts_query
    rw [hstrip, hsan, if_pos rfl]

/-- Witness for the compiled-expression invariants at concrete inputs. -/
theorem build_fts_query_wellformed_witness :
    quoteCount (Kraang.build_fts_query "py (x): \"a b\"".toList) % 2 = 0 ∧
    noUnsafeOutsideSpans (Kraang.build_fts_query "py (x): \"a b\"".toList) = true ∧
    Kraang.build_fts_query "^: [* ] ]".toList = [] :=
  ⟨(build_fts_query_wellformed "py (x): \"a b\"".toList).1,
   (build_fts_query_wellformed "py (x): \"a b\"".toList).2.1,
   (build_fts_query_wellformed "^: [* ] ]".toList).2.2 (by decide)⟩

/-! ## C6 — snippet generation -/

/-- Lower-casing preserves the length. -/
theorem toLowerL_length (s : List Char) : (Krang.toLowerL s).length = s.length := by
  simp [Krang.toLowerL]

/-- A found occurrence of a non-empty needle starts before the end of the
haystack. -/
theorem findSub_lt_length {needle : List Char} (hne : needle ≠ []) :
    ∀ {hay : List Char} {p : Nat}, Krang.findSub needle hay = some p → p < hay.length := by
  intro hay
  induction hay with
  | nil =>
    intro p h
    rw [Krang.findSub, if_neg hne] at h
    exact Option.noConfusion h
  | cons c rest ih =>
    intro p h
    rw [Krang.findSub] at h
    by_cases hpre : needle.isPrefixOf (c :: rest)
    · rw [if_pos hpre] at h
      have := Option.some.inj h
      simp [← this]
    · rw [if_neg hpre] at h
      cases hf : Krang.findSub needle rest with
      | none => rw [hf] at h; exact Option.noConfusion h
      | some n =>
        rw [hf] at h
        have hp : n + 1 = p := by
          have := Option.some.inj h
          simpa using this
        have hn := ih hf
        simp only [List.length_cons]
        omega

/-- The minimum of a list is one of its elements. -/
theorem minOpt_mem : ∀ {l : List Nat} {m : Nat}, minOpt l = some m → m ∈ l := by
  intro l
  induction l with
  | nil => intro m h; exact Option.noConfusion h
  | cons x xs ih =>
    intro m h
    rw [minOpt] at h
    have h' := Option.some.inj h
    cases hxs : minOpt xs with
    | none =>
      rw [hxs] at h'
      have h'' : x = m := h'
      exact List.mem_cons.mpr (Or.inl h''.symm)
    | some m' =>
      rw [hxs] at h'
      have h'' : min x m' = m := h'
      rcases min_choice x m' with hmin | hmin
      · rw [hmin] at h''
        exact List.mem_cons.mpr (Or.inl h''.symm)
      · rw [hmin] at h''
        exact List.mem_cons.mpr (Or.inr (h'' ▸ ih hxs))

/-- The first-match fold of `generate_snippet` computes the minimum of the
initial value and all found occurrence offsets. -/
theorem firstPos_foldl (hay : List Char) :
    ∀ (terms : List (List Char)) (init : Nat),
      terms.foldl (fun fp term =>
        match Krang.findSub term hay with
        | some pos => if pos < fp then pos else fp
        | none => fp) init =
      (match minOpt (terms.filterMap (fun t => Krang.findSub t hay)) with
       | none => init
       | some m => min init m) := by
  intro terms
  induction terms with
  | nil => intro init; rfl
  | cons t ts ih =>
    intro init
    rw [List.foldl_cons, List.filterMap_cons]
    cases hf : Krang.findSub t hay with
    | none =>
      exact ih init
    | some p =>
      have hstep : (if p < init then p else init) = min init p := by
        rcases Nat.lt_or_ge p init with h | h
        · rw [if_pos h, Nat.min_eq_right (Nat.le_of_lt h)]
        · rw [if_neg (by omega), Nat.min_eq_left h]
      dsimp only
      rw [hstep, ih (min init p), minOpt]
      cases hrest : minOpt (ts.filterMap (fun t => Krang.findSub t hay)) with
      | none => rfl
      | some m =>
        show min init p ⊓ m = init ⊓ (p ⊓ m)
        exact min_assoc init p m

/-- Every cleaned snippet term is non-empty. -/
theorem cleanSnippetTerms_ne_nil {query_terms : List (List Char)} :
    ∀ t ∈ Krang.cleanSnippetTerms query_terms, t ≠ [] := by
  intro t ht
  obtain ⟨t', _, ht'⟩ := List.mem_filterMap.mp ht
  by_cases hst : Krang.stripQuotes t' = []
  · rw [if_pos hst] at ht'
    exact Option.noConfusion ht'
  · rw [if_neg hst] at ht'
    have := Option.some.inj ht'
    rw [← this]
    intro hnil
    exact hst (List.length_eq_zero.mp (by
      have := congrArg List.length hnil
      simpa [Krang.toLowerL] using this))

/-- C6: snippet generation — empty content gives the empty snippet; an empty
term list, or no case-insensitive occurrence of any cleaned term, gives the
first max_length characters with no highlighting; otherwise the snippet is
the window of at most max_length characters starting at max(0,
first_match_offset − max_length/2), clipped so it never runs past the end of
the content and shifted left when clipped at the end, with every
case-insensitive term occurrence inside the window wrapped in the fixed
highlight marker pair, an ellipsis prefixed exactly when the window does not
start at the beginning and suffixed exactly when it does not reach the
end. -/
theorem generate_snippet_spec (content : List Char) (query_terms : List (List Char))
    (max_length : Nat) :
    (content = [] → Krang.generate_snippet content query_terms max_length = []) ∧
    (query_terms = [] →
      Krang.generate_snippet content query_terms max_length = content.take max_length) ∧
    (earliestMatch (Krang.cleanSnippetTerms query_terms) (Krang.toLowerL content) = none →
      Krang.generate_snippet content query_terms max_length = content.take max_length) ∧
    (∀ m, earliestMatch (Krang.cleanSnippetTerms query_terms) (Krang.toLowerL content) =
        some m →
      Krang.generate_snippet content query_terms max_length =
        (if 0 < snipStart content m max_length then ['.', '.', '.'] else []) ++
          ((Krang.cleanSnippetTerms query_terms).foldl
            (fun w term => Krang.highlightAll term w)
            ((content.drop (snipStart content m max_length)).take
              (snipStop content m max_length - snipStart content m max_length)) ++
          (if snipStop content m max_length < content.length then ['.', '.', '.']
           else []))) := by
  refine ⟨?_, ?_, ?_, ?_⟩
  · intro h
    subst h
    simp [Krang.generate_snippet]
  · intro h
    subst h
    simp [Krang.generate_snippet]
  · intro hnone
    by_cases hcq : content = [] ∨ query_terms = []
    · unfold Krang.generate_snippet
      rw [if_pos hcq]
    · unfold Krang.generate_snippet
      rw [if_neg hcq]
      dsimp only
      rw [firstPos_foldl (Krang.toLowerL content) (Krang.cleanSnippetTerms query_terms)
        content.length]
      unfold earliestMatch at hnone
      rw [hnone]
      dsimp only
      rw [if_pos rfl]
  · intro m hm
    have hmem : m ∈ (Krang.cleanSnippetTerms query_terms).filterMap
        (fun t => Krang.findSub t (Krang.toLowerL content)) := minOpt_mem hm
    obtain ⟨t0, ht0, hfind⟩ := List.mem_filterMap.mp hmem
    have hmlt : m < content.length := by
      have := findSub_lt_length (cleanSnippetTerms_ne_nil t0 ht0) hfind
      rwa [toLowerL_length] at this
    have hcne : content ≠ [] := by
      intro h
      subst h
      simp at hmlt
    have hqne : query_terms ≠ [] := by
      intro h
      subst h
      simp [earliestMatch, Krang.cleanSnippetTerms, minOpt] at hm
    unfold Krang.generate_snippet
    rw [if_neg (by simp [hcne, hqne])]
    dsimp only
    rw [firstPos_foldl (Krang.toLowerL content) (Krang.cleanSnippetTerms query_terms)
      content.length]
    unfold earliestMatch at hm
    rw [hm]
    dsimp only
    rw [Nat.min_eq_right (Nat.le_of_lt hmlt)]
    rw [if_neg (by omega)]
    simp only [snipStart, snipStop]
    by_cases hstop : min content.length (m - max_length / 2 + max_length) = content.length
    · simp only [hstop, eq_self_iff_true, if_true]
      rw [List.append_assoc]
    · simp only [if_neg hstop]
      rw [List.append_assoc]

/-- Witness for the snippet theorem: empty content, empty terms, and a
matched term at offset 12. -/
theorem generate_snippet_spec_witness :
    Krang.generate_snippet [] ["x".toList] 200 = [] ∧
    Krang.generate_snippet "hello".toList [] 200 = "hello".toList.take 200 ∧
    Krang.generate_snippet "hello world python rocks".toList ["python".toList] 200 =
      (if 0 < snipStart "hello world python rocks".toList 12 200 then ['.', '.', '.']
       else []) ++
        ((Krang.cleanSnippetTerms ["python".toList]).foldl
          (fun w term => Krang.highlightAll term w)
          (("hello world python rocks".toList.drop
              (snipStart "hello world python rocks".toList 12 200)).take
            (snipStop "hello world python rocks".toList 12 200 -
              snipStart "hello world python rocks".toList 12 200)) ++
        (if snipStop "hello world python rocks".toList 12 200 <
            "hello world python rocks".toList.length then ['.', '.', '.'] else [])) :=
  ⟨(generate_snippet_spec [] ["x".toList] 200).1 rfl,
   (generate_snippet_spec "hello".toList [] 200).2.1 rfl,
   (generate_snippet_spec "hello world python rocks".toList ["python".toList] 200).2.2.2
     12 (by decide)⟩
